import Mathlib

set_option maxRecDepth 8000

attribute [local semireducible] Rat.mul Rat.sub Rat.add Rat.inv Rat.ofScientific

/-!
Verification of the PDF outline extractor (`src/main.py`).

Text is modelled as `List Char`.  Python string/regex semantics are embedded at
ASCII fidelity: the regex classes `\w`, `\W`, `\s`, `\b` and the string methods
`isupper`, `istitle`, `lower`, `strip`, `split` are modelled on the ASCII range
(characters beyond ASCII are treated as non-word, non-cased, non-space, which
matches Python's behaviour for all inputs appearing in the spec and claims).
Font sizes and page coordinates (Python floats holding decimal literals) are
modelled as exact rationals.
-/

/-- Python whitespace (the set used by `str.strip`, `str.split` and `\s`),
restricted to the Latin-1 range. -/
def isPySpace (c : Char) : Bool :=
  c = ' ' || c = '\t' || c = '\n' || c = '\x0d' || c = '\x0b' || c = '\x0c' ||
  c = '\x1c' || c = '\x1d' || c = '\x1e' || c = '\x1f' || c = '\x85'

/-- ASCII model of the regex class `\w`. -/
def isWordCh (c : Char) : Bool :=
  ('a' ≤ c && c ≤ 'z') || ('A' ≤ c && c ≤ 'Z') || ('0' ≤ c && c ≤ '9') || c = '_'

/-- ASCII letters (the cased characters of the ASCII model). -/
def isLetterCh (c : Char) : Bool :=
  ('a' ≤ c && c ≤ 'z') || ('A' ≤ c && c ≤ 'Z')

def isUpperCh (c : Char) : Bool := 'A' ≤ c && c ≤ 'Z'

def isLowerCh (c : Char) : Bool := 'a' ≤ c && c ≤ 'z'

def isDigitCh (c : Char) : Bool := '0' ≤ c && c ≤ '9'

/-- The punctuation class `[.,;!?]` of `clean_text`'s third substitution. -/
def isStopCh (c : Char) : Bool :=
  c = '.' || c = ',' || c = ';' || c = '!' || c = '?'

/-- The class `[\s\-_]` of `clean_text`'s trailing-run substitution. -/
def isTrailCh (c : Char) : Bool := isPySpace c || c = '-' || c = '_'

/-- ASCII model of Python `str.lower` on one character. -/
def pyLowerCh (c : Char) : Char :=
  if c = 'A' then 'a' else if c = 'B' then 'b' else if c = 'C' then 'c' else
  if c = 'D' then 'd' else if c = 'E' then 'e' else if c = 'F' then 'f' else
  if c = 'G' then 'g' else if c = 'H' then 'h' else if c = 'I' then 'i' else
  if c = 'J' then 'j' else if c = 'K' then 'k' else if c = 'L' then 'l' else
  if c = 'M' then 'm' else if c = 'N' then 'n' else if c = 'O' then 'o' else
  if c = 'P' then 'p' else if c = 'Q' then 'q' else if c = 'R' then 'r' else
  if c = 'S' then 's' else if c = 'T' then 't' else if c = 'U' then 'u' else
  if c = 'V' then 'v' else if c = 'W' then 'w' else if c = 'X' then 'x' else
  if c = 'Y' then 'y' else if c = 'Z' then 'z' else c

def pyLower (l : List Char) : List Char := l.map pyLowerCh

/-- Accumulator worker for Python `str.split()` (split on whitespace runs,
dropping empty chunks); `cur` holds the current word reversed. -/
def wordsAux (cur : List Char) : List Char → List (List Char)
  | [] => if cur.isEmpty then [] else [cur.reverse]
  | c :: r =>
    if isPySpace c then
      if cur.isEmpty then wordsAux [] r else cur.reverse :: wordsAux [] r
    else wordsAux (c :: cur) r

/-- Python `text.split()`. -/
def pySplit (l : List Char) : List (List Char) := wordsAux [] l

/-- Python `' '.join(ws)`. -/
def joinWords : List (List Char) → List Char
  | [] => []
  | [w] => w
  | w :: ws => w ++ ' ' :: joinWords ws

/-- Python `text.strip()`. -/
def pyStrip (l : List Char) : List Char :=
  ((l.dropWhile isPySpace).reverse.dropWhile isPySpace).reverse

/-- `re.sub(r'[\s\-_]+$', '', text)`: removes the maximal trailing run of
whitespace, hyphens and underscores. -/
def rstripTrail (l : List Char) : List Char :=
  (l.reverse.dropWhile isTrailCh).reverse

def headWs : List Char → Bool
  | [] => false
  | c :: _ => isPySpace c

def headStop : List Char → Bool
  | [] => false
  | c :: _ => isStopCh c

/-- Scanner for `re.sub(r'(\w)\s+([.,;!?])', r'\1\2', text)`.  `afterWord`
records whether the character just before the pending whitespace run is a word
character (`\w`); `pend` is the pending whitespace run, reversed.  When a
`.,;!?` character follows a word character plus a nonempty whitespace run the
run is dropped (the regex replacement `\1\2`); otherwise pending whitespace is
flushed unchanged.  Scanning resumes after the punctuation character, exactly
as `re.sub` resumes after each non-overlapping match. -/
def sfGo (afterWord : Bool) (pend : List Char) : List Char → List Char
  | [] => pend.reverse
  | c :: r =>
    if isPySpace c then
      if afterWord then sfGo true (c :: pend) r
      else c :: sfGo false [] r
    else if isStopCh c && afterWord && !pend.isEmpty then
      c :: sfGo false [] r
    else
      pend.reverse ++ c :: sfGo (isWordCh c) [] r

/-- `re.sub(r'(\w)\s+([.,;!?])', r'\1\2', text)` (see `sfGo`; the lemmas
`spaceFix_match` and `spaceFix_skip` below restate it in the regex's own
leftmost-scan form). -/
def spaceFix (l : List Char) : List Char := sfGo false [] l

/-- Whether `pre` is a prefix of the second list. -/
def firstIs : List Char → List Char → Bool
  | [], _ => true
  | _ :: _, [] => false
  | a :: as, b :: bs => a = b && firstIs as bs

/-- Whether `needle` occurs as a contiguous substring. -/
def hasSub (needle : List Char) : List Char → Bool
  | [] => needle.isEmpty
  | c :: r => firstIs needle (c :: r) || hasSub needle r

def hopeW : List Char := ['h', 'o', 'p', 'e']
def seeW : List Char := ['s', 'e', 'e']
def thereW : List Char := ['t', 'h', 'e', 'r', 'e']

/-- Search for `see` followed (contiguity-free gap) by `there`. -/
def seeThere : List Char → Bool
  | [] => false
  | c :: r => (firstIs seeW (c :: r) && hasSub thereW (r.drop 2)) || seeThere r

/-- Search for `hope`, then `see`, then `there`, with arbitrary gaps
(the gap-insensitive reading of `hope.*see.*there`, valid on newline-free
text). -/
def hopeSeeThere : List Char → Bool
  | [] => false
  | c :: r => (firstIs hopeW (c :: r) && seeThere (r.drop 3)) || hopeSeeThere r

/-- `re.search(r'hope.*see.*there', ·)` on an already lowercased string: `.`
does not match a newline, so after `hope` the rest of the match must fit
before the next newline. -/
def specScan : List Char → Bool
  | [] => false
  | c :: r =>
    (firstIs hopeW (c :: r) && seeThere ((r.drop 3).takeWhile (fun d => !(d = '\n')))) ||
    specScan r

/-- The special-case test of `clean_text` (pattern `hope.*see.*there` with
`re.IGNORECASE`). -/
def hasSpecialCase (t : List Char) : Bool := specScan (pyLower t)

/-- The fixed replacement of the single special case. -/
def replText : List Char := "HOPE TO SEE YOU THERE!".toList

/-- `PDFProcessor.clean_text` (src/main.py lines 45-53). -/
def clean_text (t : List Char) : List Char :=
  let s := pyStrip t
  if hasSpecialCase s then replText
  else spaceFix (joinWords (pySplit (rstripTrail s)))

/-- Regex `^X+$` for a character class `X`, with Python's `$` also matching
just before a final newline. -/
def plusDollar (X : Char → Bool) (l : List Char) : Bool :=
  (!l.isEmpty && l.all X) ||
  (l.getLast? = some '\n' && !l.dropLast.isEmpty && l.dropLast.all X)

/-- Regex `^[0-9]{1,3}$` with the same `$` semantics. -/
def digits13 (l : List Char) : Bool :=
  (!l.isEmpty && l.all isDigitCh && decide (l.length ≤ 3)) ||
  (l.getLast? = some '\n' && !l.dropLast.isEmpty && l.dropLast.all isDigitCh &&
    decide (l.dropLast.length ≤ 3))

def rsvpW : List Char := ['r', 's', 'v', 'p']
def dateW : List Char := ['d', 'a', 't', 'e']
def timeW : List Char := ['t', 'i', 'm', 'e']
def addrW : List Char := ['a', 'd', 'd', 'r', 'e', 's', 's']

/-- Regex `\b(rsvp|date|time|address):?`: one of the four label words starting
at a word boundary (the optional colon never constrains the match); `prevW`
records whether the previous character was a word character. -/
def labelScan (prevW : Bool) : List Char → Bool
  | [] => false
  | c :: r =>
    (!prevW && (firstIs rsvpW (c :: r) || firstIs dateW (c :: r) ||
                firstIs timeW (c :: r) || firstIs addrW (c :: r))) ||
    labelScan (isWordCh c) r

/-- `PDFProcessor.is_ignored_text` (src/main.py lines 55-57): `re.search` of
each ignore pattern against the lowercased text. -/
def is_ignored_text (t : List Char) : Bool :=
  let lt := pyLower t
  plusDollar (fun c => !isWordCh c || c = '_') lt ||
  digits13 lt ||
  (firstIs "http".toList lt || firstIs "www".toList lt || firstIs ".com".toList lt) ||
  labelScan false lt ||
  lt.all isPySpace

theorem ws_not_word {c : Char} (h : isPySpace c = true) : isWordCh c = false := by
  simp only [isPySpace, Bool.or_eq_true, decide_eq_true_eq] at h
  rcases h with ((((((((((h | h) | h) | h) | h) | h) | h) | h) | h) | h) | h) <;>
    subst h <;> decide

theorem word_not_ws {c : Char} (h : isWordCh c = true) : isPySpace c = false := by
  cases h2 : isPySpace c
  · rfl
  · rw [ws_not_word h2] at h
    exact absurd h (by simp)

theorem stop_not_ws {c : Char} (h : isStopCh c = true) : isPySpace c = false := by
  simp only [isStopCh, Bool.or_eq_true, decide_eq_true_eq] at h
  rcases h with ((((h | h) | h) | h) | h) <;> subst h <;> decide

theorem stop_not_word {c : Char} (h : isStopCh c = true) : isWordCh c = false := by
  simp only [isStopCh, Bool.or_eq_true, decide_eq_true_eq] at h
  rcases h with ((((h | h) | h) | h) | h) <;> subst h <;> decide

theorem sfGo_flush (l : List Char) (pend : List Char)
    (h : headStop (l.dropWhile isPySpace) = false) :
    sfGo true pend l = pend.reverse ++ sfGo false [] l := by
  induction l generalizing pend with
  | nil => simp [sfGo]
  | cons c r ih =>
    by_cases hc : isPySpace c = true
    · rw [List.dropWhile_cons_of_pos hc] at h
      rw [sfGo, sfGo, if_pos hc]
      simp only [if_pos rfl]
      rw [ih _ h]
      simp [hc]
    · simp only [Bool.not_eq_true] at hc
      rw [List.dropWhile_cons_of_neg (by simp [hc])] at h
      simp only [headStop] at h
      rw [sfGo, sfGo]
      simp [hc, h]

theorem sfGo_state (l : List Char) (h : headWs l = false) :
    sfGo true [] l = sfGo false [] l := by
  cases l with
  | nil => rfl
  | cons c r =>
    simp only [headWs] at h
    rw [sfGo, sfGo]
    simp [h]

/-- `spaceFix` on a leftmost match of `(\w)\s+([.,;!?])`: the whitespace run
between the word character and the punctuation character is deleted, and
scanning resumes after the match. -/
theorem spaceFix_match (c : Char) (run : List Char) (p : Char) (r : List Char)
    (hc : isWordCh c = true) (hrun : run ≠ []) (hws : ∀ d ∈ run, isPySpace d = true)
    (hp : isStopCh p = true) :
    spaceFix (c :: (run ++ p :: r)) = c :: p :: spaceFix r := by
  have collect : ∀ (run' pend : List Char), (∀ d ∈ run', isPySpace d = true) →
      sfGo true pend (run' ++ p :: r) = sfGo true (run'.reverse ++ pend) (p :: r) := by
    intro run'
    induction run' with
    | nil => intro pend _; simp
    | cons d ds ih =>
      intro pend hws'
      have hd : isPySpace d = true := hws' d (by simp)
      rw [List.cons_append, sfGo, if_pos hd, if_pos rfl, ih _ (fun e he => hws' e (by simp [he]))]
      simp
  rw [spaceFix, sfGo, if_neg (by simp [word_not_ws hc]),
    if_neg (by simp), hc]
  rw [collect run [] hws]
  rw [sfGo, if_neg (by simp [stop_not_ws hp])]
  rw [if_pos (by simp [hp, hrun])]
  rfl

/-- `spaceFix` when `(\w)\s+([.,;!?])` does not match at the current position:
the head character is emitted unchanged. -/
theorem spaceFix_skip (c : Char) (r : List Char)
    (h : (isWordCh c && headWs r && headStop (r.dropWhile isPySpace)) = false) :
    spaceFix (c :: r) = c :: spaceFix r := by
  by_cases hc : isPySpace c = true
  · rw [spaceFix, sfGo, if_pos hc]
    simp only [if_neg (by simp : ¬ false = true)]
    rfl
  · simp only [Bool.not_eq_true] at hc
    rw [spaceFix, sfGo, if_neg (by simp [hc]), if_neg (by simp)]
    by_cases hw : isWordCh c = true
    · rw [hw] at h ⊢
      simp only [Bool.true_and] at h
      by_cases hr : headWs r = true
      · rw [hr] at h
        simp only [Bool.true_and] at h
        rw [sfGo_flush r [] h]
        rfl
      · simp only [Bool.not_eq_true] at hr
        rw [sfGo_state r hr]
        rfl
    · simp only [Bool.not_eq_true] at hw
      rw [hw]
      rfl

example : pyLower "AbC!".toList = "abc!".toList := by decide
example : (0.15 : ℚ) = 3 / 20 := by norm_num
example : is_ignored_text "1.".toList = false := by decide
example : is_ignored_text "123".toList = true := by decide
example : is_ignored_text "...".toList = true := by decide
example : is_ignored_text "RSVP: John".toList = true := by decide
example : is_ignored_text "datetime stuff".toList = true := by decide
example : is_ignored_text "INTRODUCTION".toList = false := by decide
example : clean_text "  a  b ".toList = "a b".toList := by decide
example : clean_text "end . ".toList = "end.".toList := by decide
example : clean_text "Hope to SEE you there ok".toList = replText := by decide
example : clean_text "hope\nsee there xx".toList = "hope see there xx".toList := by decide
example : clean_text "hope see there xx".toList = replText := by decide

/-- Python `str.isupper` (ASCII model): at least one cased character and no
lowercase one. -/
def pyIsUpper (t : List Char) : Bool :=
  t.any isUpperCh && t.all (fun c => !isLowerCh c)

/-- Python `str.istitle` (ASCII model): `prevCased` tracks whether the
previous character was cased; an uppercase letter may only follow an uncased
character, a lowercase letter only a cased one; at least one cased character
(`seen`) is required. -/
def titleScan (prevCased seen : Bool) : List Char → Bool
  | [] => seen
  | c :: r =>
    if isUpperCh c then !prevCased && titleScan true true r
    else if isLowerCh c then prevCased && titleScan true true r
    else titleScan false seen r

def pyIsTitle (t : List Char) : Bool := titleScan false false t

/-- The `text.isupper() / text.istitle()` dispatch of
`PDFProcessor.determine_heading_level` (src/main.py line 73). -/
def text_case (t : List Char) : String :=
  if pyIsUpper t then "upper" else if pyIsTitle t then "title" else "any"

/-- The per-line font profile (result of `get_font_properties`). -/
structure FontProps where
  size : ℚ
  is_bold : Bool
  color : ℤ
deriving DecidableEq, Repr

/-- One entry of `PDFProcessor.heading_profiles`; `max_size = none` models
`float('inf')`. -/
structure HeadingProfile where
  level : String
  min_size : ℚ
  max_size : Option ℚ
  weight : String
  case_req : String
  min_length : ℕ
deriving DecidableEq, Repr

/-- `PDFProcessor.heading_profiles` (src/main.py lines 9-31), in insertion
order H1, H2, H3 — the order the classification loop iterates the dict. -/
def heading_profiles : List HeadingProfile :=
  [⟨"H1", 17.5, none, "bold", "any", 5⟩,
   ⟨"H2", 18, some 23.9, "bold", "title", 4⟩,
   ⟨"H3", 14, some 17.9, "any", "any", 3⟩]

/-- The per-profile test of the loop in `determine_heading_level`
(src/main.py lines 75-86): size range, weight, case and minimum length. -/
def profile_ok (t : List Char) (fp : FontProps) (tc : String) (p : HeadingProfile) : Bool :=
  (decide (p.min_size ≤ fp.size) &&
    (match p.max_size with
     | none => true
     | some m => decide (fp.size ≤ m))) &&
  (decide (p.weight = "any") || (decide (p.weight = "bold") && fp.is_bold) ||
    (decide (p.weight = "regular") && !fp.is_bold)) &&
  (decide (p.case_req = "any") || decide (p.case_req = tc)) &&
  decide (p.min_length ≤ t.length)

/-- `PDFProcessor.determine_heading_level` (src/main.py lines 69-98): ignored
text is vetoed; otherwise the first matching primary profile wins; otherwise
the three fallback rules are tried in order. -/
def determine_heading_level (t : List Char) (fp : FontProps) : Option String :=
  if is_ignored_text t then none
  else
    let tc := text_case t
    match heading_profiles.find? (profile_ok t fp tc) with
    | some p => some p.level
    | none =>
      if 14 ≤ fp.size ∧ fp.size ≤ 16.5 ∧ fp.is_bold = true ∧
          2 ≤ (pySplit t).length ∧ (pySplit t).length ≤ 5 then some "H2"
      else if 20 ≤ fp.size ∧ 10 ≤ t.length then some "H1"
      else if 13.5 ≤ fp.size ∧ fp.size ≤ 16.5 ∧ (pySplit t).length ≤ 6 then some "H3"
      else none

/-- One text span handed over by the external PDF collaborator. -/
structure Span where
  text : List Char
  size : ℚ
  font : List Char
  color : ℤ
deriving DecidableEq, Repr

/-- A bounding box `(x0, y0, x1, y1)` in page coordinates. -/
structure BBox where
  x0 : ℚ
  y0 : ℚ
  x1 : ℚ
  y1 : ℚ
deriving DecidableEq, Repr

/-- One line of a text block: spans plus bounding box. -/
structure PLine where
  spans : List Span
  bbox : BBox
deriving DecidableEq, Repr

/-- One block; `lines = none` models a block without a `"lines"` key
(non-text content, skipped by the loop). -/
structure Block where
  lines : Option (List PLine)
deriving DecidableEq, Repr

/-- One page: width, height and blocks. -/
structure Page where
  width : ℚ
  height : ℚ
  blocks : List Block
deriving DecidableEq, Repr

/-- `PDFProcessor.get_font_properties` (src/main.py lines 59-67): maximum span
size, bold if any span font contains `"bold"` case-insensitively, colour of
the first span.  Python's `max` faults on an empty list and callers skip
span-less lines, so the empty case is unreachable; it is mapped to a junk
value. -/
def get_font_properties : List Span → FontProps
  | [] => ⟨0, false, 0⟩
  | s :: rest =>
    ⟨(rest.map Span.size).foldl max s.size,
     (s :: rest).any (fun sp => hasSub "bold".toList (pyLower sp.font)),
     s.color⟩

/-- The centering test of `extract_pdf_structure` (src/main.py lines
128-131): both margins exceed 15% of the page width, or the line spans at
least 60% of it. -/
def is_centered (b : BBox) (width : ℚ) : Bool :=
  (decide (b.x0 > width * 0.15) && decide (b.x1 < width - width * 0.15)) ||
  decide (b.x1 - b.x0 ≥ width * 0.6)

/-- One enriched element record (src/main.py lines 135-141). -/
structure Element where
  text : List Char
  props : FontProps
  page : ℕ
  bbox : BBox
  center_pos : Bool
deriving DecidableEq, Repr

/-- The per-line body of the element-collection loop (src/main.py lines
117-141): skip span-less lines, join the span texts, clean, skip lines whose
cleaned text is empty, and record font profile and centering. -/
def lineElement (pn : ℕ) (pg : Page) (ln : PLine) : Option Element :=
  match ln.spans with
  | [] => none
  | s :: ss =>
    let fp := get_font_properties (s :: ss)
    let cl := clean_text (((s :: ss).map Span.text).flatten)
    if cl.isEmpty then none
    else some ⟨cl, fp, pn, ln.bbox, is_centered ln.bbox pg.width⟩

/-- All elements of one page, blocks and lines in order. -/
def pageElements (pn : ℕ) (pg : Page) : List Element :=
  List.flatMap pg.blocks (fun b =>
    match b.lines with
    | none => []
    | some ls => ls.filterMap (lineElement pn pg))

/-- The element list of `extract_pdf_structure`, in traversal order (pages
ascending, then blocks and lines in order within each page). -/
def docElements (doc : List Page) : List Element :=
  List.flatMap doc.enum (fun pr => pageElements pr.1 pr.2)

/-- The value the loop variable `height` holds after the page loop of
`extract_pdf_structure`: the height of the LAST page (0 for an empty
document, in which case the title branch never reads it). -/
def last_page_height (doc : List Page) : ℚ :=
  match doc.getLast? with
  | some p => p.height
  | none => 0

/-- `max(candidates, key=lambda x: x['props']['size'], default=None)`
(src/main.py lines 146-150): Python's `max` keeps the first element among
those of maximal key. -/
def title_candidate (es : List Element) : Option Element :=
  es.foldl (fun acc e =>
    match acc with
    | none => some e
    | some b => if e.props.size > b.props.size then some e else acc) none

/-- One outline record of the result. -/
structure OutlineEntry where
  level : String
  text : List Char
  page : ℕ
deriving DecidableEq, Repr

/-- The result dict `{"title": ..., "outline": [...]}`. -/
structure DocStructure where
  title : List Char
  outline : List OutlineEntry
deriving DecidableEq, Repr

/-- `PDFProcessor.extract_pdf_structure` (src/main.py lines 100-165) over an
already-parsed document (the page/block/line/span data the external PDF
collaborator supplies). -/
def extract_pdf_structure (doc : List Page) : DocStructure :=
  let elements := docElements doc
  let height := last_page_height doc
  let title :=
    if elements.isEmpty then []
    else
      let first_page_elements := elements.filter (fun e => decide (e.page = 0))
      match title_candidate (first_page_elements.filter
          (fun e => e.center_pos && decide (e.bbox.y0 < height * 0.3))) with
      | some c => if 5 ≤ c.text.length then c.text else []
      | none => []
  let outline := elements.filterMap (fun e =>
    (determine_heading_level e.text e.props).map (fun lv =>
      OutlineEntry.mk lv e.text e.page))
  ⟨title, outline⟩

example : determine_heading_level "INTRODUCTION".toList ⟨19, true, 0⟩ = some "H1" := by decide
example : determine_heading_level "Dogs".toList ⟨18, true, 0⟩ = some "H2" := by decide
example : determine_heading_level "1.".toList ⟨12, true, 0⟩ = none := by decide
example : determine_heading_level "Chapter One".toList ⟨15, false, 0⟩ = some "H3" := by decide
example : is_centered ⟨250, 50, 350, 60⟩ 600 = true := by decide
example : text_case "AbC".toList = "any" := by decide
example : text_case "Dogs".toList = "title" := by decide
example : text_case "123".toList = "any" := by decide
example : text_case "ABC".toList = "upper" := by decide

/-- Stable maximum by font size, as the spec words it: the element of maximum
`fontProfile.size`, ties broken by first-encountered. -/
def spec_stable_max : List Element → Option Element
  | [] => none
  | e :: l =>
    match spec_stable_max l with
    | none => some e
    | some b => if b.props.size > e.props.size then some b else some e

/-- `detectTitle` as the spec words it (§4.5), parameterised by the page
height used for the top-of-page test: restrict to page-0 elements that are
centered with top edge above 30% of the height, take the stable maximum by
size, and keep its text when it has length at least 5. -/
def spec_detect_title (es : List Element) (ph : ℚ) : List Char :=
  match spec_stable_max (es.filter (fun e =>
      decide (e.page = 0) && e.center_pos && decide (e.bbox.y0 < ph * 0.3))) with
  | some c => if 5 ≤ c.text.length then c.text else []
  | none => []

/-- The height of page 0 — the page height claim C2 asserts the title test
uses for every document. -/
def first_page_height (doc : List Page) : ℚ :=
  match doc.head? with
  | some p => p.height
  | none => 0

/-- First character is an uppercase letter (used by `spec_text_case`). -/
def wordHeadUpper : List Char → Bool
  | [] => true
  | c :: _ => isUpperCh c

/-- `textCase` computed exactly as claim C4 words it: "upper" when all cased
characters are uppercase (i.e. no lowercase letter occurs); otherwise "title"
when every word's first letter is uppercase, with no condition on the other
letters of each word; otherwise "any". -/
def spec_text_case (t : List Char) : String :=
  if t.all (fun c => !isLowerCh c) then "upper"
  else if (pySplit t).all wordHeadUpper then "title"
  else "any"

/-- A span with the given text and size (font "Helvetica", colour 0). -/
def mkSpan (t : String) (sz : ℚ) : Span := ⟨t.toList, sz, "Helvetica".toList, 0⟩

/-- The spec's title scenario page: width 600, height 800, with the two lines
"Welcome Party" (size 28, bbox (250,50,350,70)) and "Agenda" (size 14, bbox
(250,200,350,215)); both lines are centered. -/
def scenarioPage : Page :=
  ⟨600, 800, [⟨some [⟨[mkSpan "Welcome Party" 28], ⟨250, 50, 350, 70⟩⟩,
                     ⟨[mkSpan "Agenda" 14], ⟨250, 200, 350, 215⟩⟩]⟩]⟩

/-- The spec's title scenario as a one-page document. -/
def scenarioDoc : List Page := [scenarioPage]

/-- The scenario page followed by a second page of height 100 with no
content. -/
def twoPageDoc : List Page := [scenarioPage, ⟨600, 100, []⟩]

/-- A document whose only line is ignored text (an RSVP label), centered near
the top of page 0 with a large font. -/
def rsvpDoc : List Page :=
  [⟨600, 800, [⟨some [⟨[mkSpan "RSVP: John Smith" 20], ⟨250, 50, 350, 70⟩⟩]⟩]⟩]

example : (extract_pdf_structure scenarioDoc).title = "Welcome Party".toList := by decide
example : (extract_pdf_structure twoPageDoc).title = [] := by decide
example : (extract_pdf_structure rsvpDoc).title = "RSVP: John Smith".toList := by decide
example : spec_detect_title (docElements twoPageDoc) (first_page_height twoPageDoc) =
    "Welcome Party".toList := by decide

/-- C7: `is_centered` returns true if and only if either both `x0 > 0.15·w`
and `x1 < w − 0.15·w` hold, or `x1 − x0 ≥ 0.6·w`; in particular it is true
for page width 600 and bbox `x0 = 250`, `x1 = 350`. -/
theorem C7_is_centered_iff :
    (∀ (b : BBox) (w : ℚ), is_centered b w = true ↔
      ((b.x0 > w * 0.15 ∧ b.x1 < w - w * 0.15) ∨ (b.x1 - b.x0 ≥ w * 0.6))) ∧
    is_centered ⟨250, 50, 350, 60⟩ 600 = true := by
  constructor
  · intro b w
    simp [is_centered]
  · decide

/-- C3 (counterexample): `is_ignored_text "1."` is false, contrary to the
claim — the 1–3-digit pattern `^[0-9]{1,3}$` does not match "1." because of
the trailing period, and no other ignore pattern matches it either. -/
theorem C3_counterexample : is_ignored_text "1.".toList = false := by decide

/-- C3 (amended): the string "1." is NOT ignored text, yet
`classify("1.", size 12)` still returns None for every boldness and colour,
because no primary profile or fallback rule covers size 12. -/
theorem C3_amended :
    is_ignored_text "1.".toList = false ∧
    ∀ (b : Bool) (col : ℤ), determine_heading_level "1.".toList ⟨12, b, col⟩ = none := by
  refine ⟨by decide, fun b col => ?_⟩
  cases b <;> rfl

/-- C1 (counterexample): in a document whose only line is the ignored text
"RSVP: John Smith", centered near the top of page 0, that very text is
selected as the title — the title detection never consults
`is_ignored_text`. -/
theorem C1_counterexample :
    is_ignored_text "RSVP: John Smith".toList = true ∧
    (extract_pdf_structure rsvpDoc).title = "RSVP: John Smith".toList :=
  ⟨by decide, by decide⟩

/-- C1 (amended): an ignored line is never classified as a heading —
`determine_heading_level` returns None for it — but the title detection does
not consult `is_ignored_text`, so an ignored line's text CAN become the title
(see `C1_counterexample`). -/
theorem C1_amended : ∀ (t : List Char) (fp : FontProps),
    is_ignored_text t = true → determine_heading_level t fp = none := by
  intro t fp h
  unfold determine_heading_level
  simp [h]

/-- Witness for `C1_amended` at the ignored text "123". -/
theorem C1_witness :
    is_ignored_text "123".toList = true ∧
    determine_heading_level "123".toList ⟨15, true, 0⟩ = none :=
  ⟨by decide, C1_amended "123".toList ⟨15, true, 0⟩ (by decide)⟩

/-- C4 (counterexample): for the text "123" the code computes textCase "any"
(Python's `isupper` requires at least one cased character), while the claim's
reading — "upper exactly when all cased characters are uppercase" — assigns
"upper", since "123" has no cased character at all. -/
theorem C4_counterexample :
    text_case "123".toList = "any" ∧ spec_text_case "123".toList = "upper" :=
  ⟨by decide, by decide⟩

/-- C5: every non-ignored text of length at least 5 with a bold size-19 font
profile classifies as H1 — the H1 profile (min 17.5, no max, bold, any case,
min length 5) matches and is evaluated first. -/
theorem C5_size19_bold_H1 : ∀ (t : List Char) (col : ℤ),
    is_ignored_text t = false → 5 ≤ t.length →
    determine_heading_level t ⟨19, true, col⟩ = some "H1" := by
  intro t col hig hlen
  unfold determine_heading_level
  rw [hig]
  have hok : profile_ok t ⟨19, true, col⟩ (text_case t)
      ⟨"H1", 17.5, none, "bold", "any", 5⟩ = true := by
    simp [profile_ok, hlen]
    norm_num
  simp only [heading_profiles, List.find?, hok]
  rfl

/-- Witness for `C5_size19_bold_H1` at the text "INTRODUCTION". -/
theorem C5_witness :
    is_ignored_text "INTRODUCTION".toList = false ∧ 5 ≤ "INTRODUCTION".toList.length ∧
    determine_heading_level "INTRODUCTION".toList ⟨19, true, 0⟩ = some "H1" :=
  ⟨by decide, by decide, C5_size19_bold_H1 "INTRODUCTION".toList 0 (by decide) (by decide)⟩

/-- C9: `determine_heading_level` returns H2 only for bold font profiles —
the H2 primary profile requires weight "bold" and the H2 fallback rule
requires `is_bold`. -/
theorem C9_H2_only_bold : ∀ (t : List Char) (fp : FontProps),
    determine_heading_level t fp = some "H2" → fp.is_bold = true := by
  intro t fp h
  obtain ⟨sz, bold, col⟩ := fp
  cases bold
  · exfalso
    simp only [determine_heading_level, heading_profiles, List.find?, profile_ok] at h
    simp at h
    obtain ⟨-, h⟩ := h
    repeat' split at h
    all_goals (try simp_all)
    all_goals (rename_i x p heq; split at heq <;>
      first
      | (simp_all; done)
      | (rw [Option.some.injEq] at heq; rw [← heq] at h; exact absurd h (by decide)))
  · rfl

/-- Witness for `C9_H2_only_bold` at the text "Dogs" with size 18 bold (the
one way H2 is reachable: H1 needs length 5). -/
theorem C9_witness :
    determine_heading_level "Dogs".toList ⟨18, true, 0⟩ = some "H2" ∧
    (FontProps.mk 18 true 0).is_bold = true :=
  ⟨by decide, C9_H2_only_bold "Dogs".toList ⟨18, true, 0⟩ (by decide)⟩

/-- C10: no text with a font size strictly below 13.5 is ever classified —
13.5 (the H3 fallback's lower bound) is the global minimum size of all
primary profiles and fallback rules. -/
theorem C10_small_size_none : ∀ (t : List Char) (fp : FontProps),
    fp.size < 13.5 → determine_heading_level t fp = none := by
  intro t fp hsz
  obtain ⟨sz, bold, col⟩ := fp
  simp only at hsz
  have h135 : sz < 13.5 := hsz
  unfold determine_heading_level
  by_cases hig : is_ignored_text t = true
  · rw [hig]
    rfl
  · rw [Bool.not_eq_true] at hig
    rw [hig]
    have h1 : decide ((17.5 : ℚ) ≤ sz) = false := by
      apply decide_eq_false
      intro hle
      norm_num at h135
      linarith
    have h2 : decide ((18 : ℚ) ≤ sz) = false := by
      apply decide_eq_false
      intro hle
      norm_num at h135
      linarith
    have h3 : decide ((14 : ℚ) ≤ sz) = false := by
      apply decide_eq_false
      intro hle
      norm_num at h135
      linarith
    simp only [heading_profiles, List.find?, profile_ok, h1, h2, h3, Bool.false_and]
    simp only [Bool.false_eq_true, if_false]
    rw [if_neg, if_neg, if_neg]
    · intro ⟨ha, _⟩
      norm_num at h135
      linarith
    · intro ⟨ha, _⟩
      norm_num at h135
      linarith
    · intro ⟨ha, _⟩
      norm_num at h135
      linarith

/-- Witness for `C10_small_size_none` at the text "Hello" with size 12. -/
theorem C10_witness :
    ((12 : ℚ) < 13.5) ∧ determine_heading_level "Hello".toList ⟨12, true, 0⟩ = none :=
  ⟨by norm_num, C10_small_size_none "Hello".toList ⟨12, true, 0⟩ (by norm_num)⟩

/-- The outline entry an element produces when it classifies: the
classifier's level, the element's text and page. -/
def entry_of (e : Element) : OutlineEntry :=
  ⟨(determine_heading_level e.text e.props).getD "", e.text, e.page⟩

/-- C8: the outline is exactly the classified elements in element order — no
sorting, deduplication or merging — and hence a sublist of the per-element
entries of the full traversal, which `docElements` enumerates page by page
(ascending) and line by line within each page. -/
theorem C8_outline_order : ∀ (doc : List Page),
    (extract_pdf_structure doc).outline =
      ((docElements doc).filter
        (fun e => (determine_heading_level e.text e.props).isSome)).map entry_of ∧
    List.Sublist ((extract_pdf_structure doc).outline)
      ((docElements doc).map entry_of) := by
  intro doc
  have key : ∀ (es : List Element),
      es.filterMap (fun e => (determine_heading_level e.text e.props).map
        (fun lv => OutlineEntry.mk lv e.text e.page)) =
      (es.filter (fun e => (determine_heading_level e.text e.props).isSome)).map entry_of := by
    intro es
    induction es with
    | nil => rfl
    | cons e l ih =>
      cases hd : determine_heading_level e.text e.props with
      | none => simp [List.filterMap_cons, List.filter_cons, hd, ih]
      | some lv => simp [List.filterMap_cons, List.filter_cons, hd, ih, entry_of]
  have houtline : (extract_pdf_structure doc).outline =
      (docElements doc).filterMap (fun e => (determine_heading_level e.text e.props).map
        (fun lv => OutlineEntry.mk lv e.text e.page)) := rfl
  constructor
  · rw [houtline]
    exact key _
  · rw [houtline, key _]
    exact List.Sublist.map entry_of (List.filter_sublist _)

theorem spec_stable_max_ne_none : ∀ (e : Element) (l : List Element),
    spec_stable_max (e :: l) ≠ none := by
  intro e l
  cases hsm : spec_stable_max l with
  | none => simp [spec_stable_max, hsm]
  | some m =>
    simp only [spec_stable_max, hsm]
    split <;> simp

/-- Python's left fold `max(..., key=size, default=None)` computes the
spec-side stable maximum (first element among those of maximal size). -/
theorem title_candidate_eq_stable_max : ∀ (es : List Element),
    title_candidate es = spec_stable_max es := by
  have aux : ∀ (l : List Element) (b : Element),
      l.foldl (fun acc e =>
        match acc with
        | none => some e
        | some b => if e.props.size > b.props.size then some e else acc) (some b) =
      match spec_stable_max l with
      | none => some b
      | some m => if m.props.size > b.props.size then some m else some b := by
    intro l
    induction l with
    | nil => intro b; rfl
    | cons e l ih =>
      intro b
      simp only [List.foldl_cons]
      cases hsm : spec_stable_max l with
      | none =>
        cases l with
        | nil => rfl
        | cons x xs => exact absurd hsm (spec_stable_max_ne_none x xs)
      | some m =>
        by_cases hc : e.props.size > b.props.size
        · rw [if_pos hc, ih e]
          by_cases hme : m.props.size > e.props.size
          · simp only [spec_stable_max, hsm, if_pos hme]
            rw [if_pos (by linarith : m.props.size > b.props.size)]
          · simp only [spec_stable_max, hsm, if_neg hme]
            rw [if_pos hc]
        · rw [if_neg hc, ih b]
          by_cases hme : m.props.size > e.props.size
          · simp only [spec_stable_max, hsm, if_pos hme]
          · simp only [spec_stable_max, hsm, if_neg hme]
            have h1 : m.props.size ≤ e.props.size := not_lt.mp hme
            have h2 : e.props.size ≤ b.props.size := not_lt.mp hc
            rw [if_neg (by push_neg; linarith : ¬ m.props.size > b.props.size), if_neg hc]
  intro es
  cases es with
  | nil => rfl
  | cons e l =>
    show List.foldl _ (some e) l = _
    rw [aux l e]
    simp only [spec_stable_max]

/-- C2 (counterexample): on a document whose second page has height 100, the
code's title differs from the claim's reading (which uses page 0's height for
every document): the code yields the empty title while the page-0-height
reading yields "Welcome Party" — the `height` used by the title test is the
loop variable left over from the LAST page. -/
theorem C2_counterexample :
    ¬ ((extract_pdf_structure twoPageDoc).title =
        spec_detect_title (docElements twoPageDoc) (first_page_height twoPageDoc)) := by
  decide

/-- C2 (amended): the title is computed exactly as the claim describes —
page-0 elements, centered, top edge under 30% of the page height, stable
maximum by size, cleaned length at least 5 — except that the page height used
is the height of the LAST page of the document (the leftover loop variable),
not page 0's.  On the spec's one-page scenario the two heights coincide and
the title is "Welcome Party". -/
theorem C2_amended :
    (∀ (doc : List Page),
      (extract_pdf_structure doc).title =
        spec_detect_title (docElements doc) (last_page_height doc)) ∧
    (extract_pdf_structure scenarioDoc).title = "Welcome Party".toList := by
  refine ⟨fun doc => ?_, by decide⟩
  have hfil : ∀ (es : List Element) (h : ℚ),
      (es.filter (fun e => decide (e.page = 0))).filter
          (fun e => e.center_pos && decide (e.bbox.y0 < h * 0.3)) =
      es.filter (fun e =>
          decide (e.page = 0) && e.center_pos && decide (e.bbox.y0 < h * 0.3)) := by
    intro es h
    rw [List.filter_filter]
    apply List.filter_congr
    intro e _
    cases h0 : decide (e.page = 0) <;> cases hc : e.center_pos <;>
      cases hy : decide (e.bbox.y0 < h * 0.3) <;> rfl
  show (if (docElements doc).isEmpty then [] else _) = _
  cases hde : docElements doc with
  | nil => simp [spec_detect_title, spec_stable_max]
  | cons e l =>
    simp only [List.isEmpty_cons, if_false, Bool.false_eq_true]
    rw [← hde, spec_detect_title, ← hfil, title_candidate_eq_stable_max]

theorem letter_eq_lower_or_upper (c : Char) :
    isLetterCh c = (isLowerCh c || isUpperCh c) := rfl

theorem upper_not_lower {c : Char} (h : isUpperCh c = true) : isLowerCh c = false := by
  simp only [isUpperCh, Bool.and_eq_true, decide_eq_true_eq] at h
  cases hlo : isLowerCh c
  · rfl
  · exfalso
    simp only [isLowerCh, Bool.and_eq_true, decide_eq_true_eq] at hlo
    exact absurd (le_trans hlo.1 h.2) (by decide)

theorem upper_letter {c : Char} (h : isUpperCh c = true) : isLetterCh c = true := by
  rw [letter_eq_lower_or_upper, h, Bool.or_true]

theorem lower_letter {c : Char} (h : isLowerCh c = true) : isLetterCh c = true := by
  rw [letter_eq_lower_or_upper, h, Bool.true_or]

theorem uncased_not_letter {c : Char} (hu : isUpperCh c = false)
    (hl : isLowerCh c = false) : isLetterCh c = false := by
  rw [letter_eq_lower_or_upper, hu, hl]
  rfl

/-- Adjacency constraint of Python `istitle`: an uppercase letter may not
directly follow a cased character, a lowercase letter must. -/
def chR (a b : Char) : Prop :=
  (isUpperCh b = true → isLetterCh a = false) ∧ (isLowerCh b = true → isLetterCh a = true)

/-- Head constraint plus adjacency chain of Python `istitle`, with `prev` the
casedness of the character preceding `t` (false at the start of the string). -/
def titleChain (prev : Bool) (t : List Char) : Prop :=
  (∀ c, t.head? = some c →
    ((isUpperCh c = true → prev = false) ∧ (isLowerCh c = true → prev = true))) ∧
  List.Chain' chR t

theorem titleChain_cons (prev : Bool) (c : Char) (r : List Char) :
    titleChain prev (c :: r) ↔
      ((isUpperCh c = true → prev = false) ∧ (isLowerCh c = true → prev = true)) ∧
      titleChain (isLetterCh c) r := by
  unfold titleChain
  rw [List.chain'_cons']
  constructor
  · rintro ⟨hhd, hnext, hch⟩
    refine ⟨hhd c rfl, ?_, hch⟩
    intro d hd
    exact hnext d (by simp [Option.mem_def, hd])
  · rintro ⟨hc, hhd, hch⟩
    refine ⟨?_, ?_, hch⟩
    · intro d hd
      rw [List.head?_cons, Option.some.injEq] at hd
      subst hd
      exact hc
    · intro b hb
      rw [Option.mem_def] at hb
      exact hhd b hb

/-- `titleScan` decides the chain plus at-least-one-cased characterisation of
Python `istitle`. -/
theorem titleScan_iff : ∀ (t : List Char) (prev seen : Bool),
    titleScan prev seen t = true ↔
      (titleChain prev t ∧ (seen = true ∨ ∃ c ∈ t, isLetterCh c = true)) := by
  intro t
  induction t with
  | nil =>
    intro prev seen
    simp [titleScan, titleChain]
  | cons c r ih =>
    intro prev seen
    rw [titleChain_cons]
    by_cases hu : isUpperCh c = true
    · have hl : isLowerCh c = false := upper_not_lower hu
      have hlet : isLetterCh c = true := upper_letter hu
      simp only [titleScan, if_pos hu, Bool.and_eq_true, Bool.not_eq_true']
      rw [ih true true]
      simp [hu, hl, hlet]
    · rw [Bool.not_eq_true] at hu
      have hu' : ¬ (isUpperCh c = true) := by simp [hu]
      by_cases hl : isLowerCh c = true
      · have hlet : isLetterCh c = true := lower_letter hl
        simp only [titleScan, if_neg hu', if_pos hl, Bool.and_eq_true]
        rw [ih true true]
        simp [hu, hl, hlet]
      · rw [Bool.not_eq_true] at hl
        have hl' : ¬ (isLowerCh c = true) := by simp [hl]
        have hlet : isLetterCh c = false := uncased_not_letter hu hl
        simp only [titleScan, if_neg hu', if_neg hl']
        rw [ih false seen]
        simp [hu, hl, hlet]

/-- Python `isupper` as a predicate. -/
def upperSpec (t : List Char) : Prop :=
  (∃ c ∈ t, isUpperCh c = true) ∧ ∀ c ∈ t, isLowerCh c = false

/-- Python `istitle` as a predicate. -/
def titleSpecP (t : List Char) : Prop :=
  titleChain false t ∧ ∃ c ∈ t, isLetterCh c = true

theorem pyIsUpper_iff (t : List Char) : pyIsUpper t = true ↔ upperSpec t := by
  simp [pyIsUpper, upperSpec, List.any_eq_true, List.all_eq_true]

theorem pyIsTitle_iff (t : List Char) : pyIsTitle t = true ↔ titleSpecP t := by
  rw [pyIsTitle, titleScan_iff]
  simp [titleSpecP]

/-- C4 (amended): `textCase` is "upper" exactly when Python `isupper` holds
(at least one uppercase letter and no lowercase one); "title" exactly when
`isupper` fails and Python `istitle` holds (at least one cased character, no
uppercase letter directly after a cased character, and every lowercase letter
directly after a cased character — so the remaining letters of each word are
constrained, unlike the claim's reading); "any" otherwise. -/
theorem C4_amended : ∀ t : List Char,
    (text_case t = "upper" ↔ upperSpec t) ∧
    (text_case t = "title" ↔ (¬ upperSpec t ∧ titleSpecP t)) ∧
    (text_case t = "any" ↔ (¬ upperSpec t ∧ ¬ titleSpecP t)) := by
  intro t
  unfold text_case
  by_cases hup : pyIsUpper t = true
  · rw [if_pos hup]
    have h1 : upperSpec t := (pyIsUpper_iff t).mp hup
    refine ⟨by simp [h1], by simp [h1], by simp [h1]⟩
  · rw [if_neg hup]
    rw [Bool.not_eq_true] at hup
    have h1 : ¬ upperSpec t := by
      rw [← pyIsUpper_iff, hup]
      simp
    by_cases hti : pyIsTitle t = true
    · rw [if_pos hti]
      have h2 : titleSpecP t := (pyIsTitle_iff t).mp hti
      refine ⟨by simp [h1], by simp [h1, h2], by simp [h2]⟩
    · rw [if_neg hti]
      rw [Bool.not_eq_true] at hti
      have h2 : ¬ titleSpecP t := by
        rw [← pyIsTitle_iff, hti]
        simp
      refine ⟨by simp [h1], by simp [h2], by simp [h1, h2]⟩

/-! Machinery for claim C6 (idempotence of `clean_text`). -/

theorem letter_word {c : Char} (h : isLetterCh c = true) : isWordCh c = true := by
  simp only [isLetterCh, Bool.or_eq_true] at h
  simp only [isWordCh, Bool.or_eq_true]
  tauto

theorem ws_not_letter {c : Char} (h : isPySpace c = true) : isLetterCh c = false := by
  cases hl : isLetterCh c
  · rfl
  · have h1 := letter_word hl
    rw [ws_not_word h] at h1
    exact absurd h1 (by simp)

theorem stop_not_letter {c : Char} (h : isStopCh c = true) : isLetterCh c = false := by
  cases hl : isLetterCh c
  · rfl
  · have h1 := letter_word hl
    rw [stop_not_word h] at h1
    exact absurd h1 (by simp)

theorem stop_not_trail {c : Char} (h : isStopCh c = true) : isTrailCh c = false := by
  simp only [isStopCh, Bool.or_eq_true, decide_eq_true_eq] at h
  rcases h with ((((h | h) | h) | h) | h) <;> subst h <;> decide

theorem firstIs_append_self : ∀ (w x : List Char), firstIs w (w ++ x) = true := by
  intro w
  induction w with
  | nil => intro x; rfl
  | cons a as ih => intro x; simp [firstIs, ih]

theorem firstIs_mono : ∀ (n a x : List Char), firstIs n a = true → firstIs n (a ++ x) = true := by
  intro n
  induction n with
  | nil => intro a x _; rfl
  | cons d n' ih =>
    intro a x h
    cases a with
    | nil => exact absurd h (by simp [firstIs])
    | cons b a' =>
      simp only [firstIs, Bool.and_eq_true] at h
      simp [firstIs, h.1, ih a' x h.2]

theorem firstIs_length : ∀ (n l : List Char), firstIs n l = true → n.length ≤ l.length := by
  intro n
  induction n with
  | nil => intro l _; simp
  | cons d n' ih =>
    intro l h
    cases l with
    | nil => exact absurd h (by simp [firstIs])
    | cons b l' =>
      simp only [firstIs, Bool.and_eq_true] at h
      simpa using ih l' h.2

theorem firstIs_cons_iff (d : Char) (n' : List Char) (c : Char) (l : List Char) :
    firstIs (d :: n') (c :: l) = true ↔ (d = c ∧ firstIs n' l = true) := by
  simp [firstIs]

theorem hasSub_cons (n : List Char) (c : Char) (l : List Char)
    (h : hasSub n l = true) : hasSub n (c :: l) = true := by
  cases l <;> simp [hasSub] at h ⊢ <;> simp [h]

theorem seeThere_cons (c : Char) (l : List Char)
    (h : seeThere l = true) : seeThere (c :: l) = true := by
  simp only [seeThere, Bool.or_eq_true]
  exact Or.inr h

theorem hopeSeeThere_cons (c : Char) (l : List Char)
    (h : hopeSeeThere l = true) : hopeSeeThere (c :: l) = true := by
  simp only [hopeSeeThere, Bool.or_eq_true]
  exact Or.inr h

theorem hasSub_mono : ∀ (a x : List Char), hasSub thereW a = true → hasSub thereW (a ++ x) = true := by
  intro a
  induction a with
  | nil => intro x h; exact absurd h (by simp [hasSub, thereW])
  | cons c r ih =>
    intro x h
    simp only [hasSub, Bool.or_eq_true] at h
    rcases h with h | h
    · simp only [List.cons_append, hasSub, Bool.or_eq_true]
      exact Or.inl (firstIs_mono _ _ _ h)
    · simp only [List.cons_append, hasSub, Bool.or_eq_true]
      exact Or.inr (ih x h)

theorem seeThere_mono : ∀ (a x : List Char), seeThere a = true → seeThere (a ++ x) = true := by
  intro a
  induction a with
  | nil => intro x h; exact absurd h (by simp [seeThere])
  | cons c r ih =>
    intro x h
    simp only [seeThere, Bool.or_eq_true, Bool.and_eq_true] at h
    rcases h with ⟨h1, h2⟩ | h
    · have hlen : 2 ≤ r.length := by
        have := firstIs_length _ _ h1
        simp [seeW] at this
        omega
      simp only [List.cons_append, List.append_eq, seeThere, Bool.or_eq_true, Bool.and_eq_true]
      refine Or.inl ⟨firstIs_mono _ _ _ h1, ?_⟩
      rw [List.drop_append_of_le_length hlen]
      exact hasSub_mono _ _ h2
    · simp only [List.cons_append, seeThere, Bool.or_eq_true]
      exact Or.inr (ih x h)

theorem hopeSeeThere_mono : ∀ (a x : List Char),
    hopeSeeThere a = true → hopeSeeThere (a ++ x) = true := by
  intro a
  induction a with
  | nil => intro x h; exact absurd h (by simp [hopeSeeThere])
  | cons c r ih =>
    intro x h
    simp only [hopeSeeThere, Bool.or_eq_true, Bool.and_eq_true] at h
    rcases h with ⟨h1, h2⟩ | h
    · have hlen : 3 ≤ r.length := by
        have := firstIs_length _ _ h1
        simp [hopeW] at this
        omega
      simp only [List.cons_append, List.append_eq, hopeSeeThere, Bool.or_eq_true, Bool.and_eq_true]
      refine Or.inl ⟨firstIs_mono _ _ _ h1, ?_⟩
      rw [List.drop_append_of_le_length hlen]
      exact seeThere_mono _ _ h2
    · simp only [List.cons_append, hopeSeeThere, Bool.or_eq_true]
      exact Or.inr (ih x h)

theorem takeWhile_eq_self_of_all {p : Char → Bool} : ∀ (l : List Char),
    (∀ c ∈ l, p c = true) → l.takeWhile p = l := by
  intro l
  induction l with
  | nil => intro _; rfl
  | cons c r ih =>
    intro h
    rw [List.takeWhile_cons_of_pos (h c (by simp))]
    rw [ih (fun d hd => h d (by simp [hd]))]

/-- The windowed search implies the plain one. -/
theorem specScan_imp_hst : ∀ (l : List Char), specScan l = true → hopeSeeThere l = true := by
  intro l
  induction l with
  | nil => intro h; exact absurd h (by simp [specScan])
  | cons c r ih =>
    intro h
    simp only [specScan, Bool.or_eq_true, Bool.and_eq_true] at h
    rcases h with ⟨h1, h2⟩ | h
    · simp only [hopeSeeThere, Bool.or_eq_true, Bool.and_eq_true]
      refine Or.inl ⟨h1, ?_⟩
      have := seeThere_mono _ ((r.drop 3).dropWhile (fun d => !(d = '\n'))) h2
      rwa [List.takeWhile_append_dropWhile] at this
    · exact hopeSeeThere_cons _ _ (ih h)

/-- On newline-free text the windowed search and the plain search agree. -/
theorem specScan_eq_hst_of_noNL : ∀ (l : List Char),
    (∀ c ∈ l, ¬ c = '\n') → specScan l = hopeSeeThere l := by
  intro l
  induction l with
  | nil => intro _; rfl
  | cons c r ih =>
    intro h
    have hr : ∀ d ∈ r, ¬ d = '\n' := fun d hd => h d (by simp [hd])
    have hdrop : ∀ d ∈ r.drop 3, (fun d => !(d = '\n')) d = true := by
      intro d hd
      simp only [Bool.not_eq_true']
      exact decide_eq_false (hr d (List.mem_of_mem_drop hd))
    simp only [specScan, hopeSeeThere]
    rw [takeWhile_eq_self_of_all _ hdrop, ih hr]

/-- Head is not a letter (or the list is empty). -/
def headNonLetter : List Char → Prop
  | [] => True
  | c :: _ => isLetterCh c = false

/-- `NLDel f y z` : `z` arises from `y` by keeping every letter, substituting
non-letters for non-letters, and deleting a non-letter only when the last
character already written to `z` is a non-letter (`f = true`, true at the
start of the string) or the next character of `z` is not a letter.  Such
rewrites never create a new contiguous occurrence of an all-letter word, which
is what the transfer lemmas below exploit.  All of `clean_text`'s
whitespace rewrites are instances. -/
inductive NLDel : Bool → List Char → List Char → Prop
  | nil (f : Bool) : NLDel f [] []
  | keep {f : Bool} {c : Char} {y z : List Char} :
      NLDel (!isLetterCh c) y z → NLDel f (c :: y) (c :: z)
  | subst {f : Bool} {c d : Char} {y z : List Char} :
      isLetterCh c = false → isLetterCh d = false →
      NLDel true y z → NLDel f (c :: y) (d :: z)
  | drop {f : Bool} {c : Char} {y z : List Char} :
      isLetterCh c = false → (f = true ∨ headNonLetter z) →
      NLDel f y z → NLDel f (c :: y) z

/-- An all-letter prefix of the target of an `NLDel` relation with flag false
is also a prefix of the source, with the relation continuing behind it. -/
theorem NLDel_prefix : ∀ (w : List Char), (∀ c ∈ w, isLetterCh c = true) →
    ∀ (y z : List Char), NLDel false y z → firstIs w z = true →
    ∃ y₂, y = w ++ y₂ ∧ NLDel false y₂ (z.drop w.length) := by
  intro w
  induction w with
  | nil =>
    intro _ y z h _
    exact ⟨y, rfl, by simpa using h⟩
  | cons w0 w' ih =>
    intro hw y z h hfi
    have hw0 : isLetterCh w0 = true := hw w0 (by simp)
    cases z with
    | nil => exact absurd hfi (by simp [firstIs])
    | cons b z' =>
      rw [firstIs_cons_iff] at hfi
      obtain ⟨rfl, hfi'⟩ := hfi
      cases h with
      | keep hrest =>
        rename_i y'
        rw [hw0] at hrest
        obtain ⟨y₂, rfl, hdel⟩ := ih (fun d hd => hw d (by simp [hd])) y' z'
          (by simpa using hrest) hfi'
        exact ⟨y₂, rfl, by simpa using hdel⟩
      | subst hc hd hrest =>
        rw [hw0] at hd
        exact absurd hd (by simp)
      | drop hc hside hrest =>
        rcases hside with hside | hside
        · exact absurd hside (by simp)
        · simp only [headNonLetter] at hside
          rw [hw0] at hside
          exact absurd hside (by simp)

/-- Transfer of a contiguous all-letter needle along `NLDel`. -/
theorem NLDel_hasSub_gen (n : List Char) (hn : ∀ c ∈ n, isLetterCh c = true) :
    ∀ {f : Bool} {y z : List Char}, NLDel f y z →
    hasSub n z = true → hasSub n y = true := by
  intro f y z h
  induction h with
  | nil f => exact fun hh => hh
  | keep hrest ih =>
    rename_i f c y' z'
    intro hh
    simp only [hasSub, Bool.or_eq_true] at hh ⊢
    rcases hh with hh | hh
    · left
      cases n with
      | nil => simp [firstIs]
      | cons n0 n' =>
        rw [firstIs_cons_iff] at hh
        obtain ⟨rfl, hh'⟩ := hh
        have hlet : isLetterCh n0 = true := hn n0 (by simp)
        rw [hlet] at hrest
        obtain ⟨y₂, rfl, -⟩ := NLDel_prefix n' (fun d hd => hn d (by simp [hd])) y' z'
          (by simpa using hrest) hh'
        rw [firstIs_cons_iff]
        exact ⟨rfl, firstIs_append_self n' y₂⟩
    · exact Or.inr (ih hh)
  | subst hc hd hrest ih =>
    rename_i f c d y' z'
    intro hh
    simp only [hasSub, Bool.or_eq_true] at hh ⊢
    rcases hh with hh | hh
    · cases n with
      | nil => simp [firstIs]
      | cons n0 n' =>
        rw [firstIs_cons_iff] at hh
        obtain ⟨rfl, -⟩ := hh
        rw [hn n0 (by simp)] at hd
        exact absurd hd (by simp)
    · exact Or.inr (ih hh)
  | drop hc hside hrest ih =>
    intro hh
    exact hasSub_cons _ _ _ (ih hh)

/-- Transfer of `see ... there` along `NLDel`. -/
theorem NLDel_seeThere : ∀ {f : Bool} {y z : List Char}, NLDel f y z →
    seeThere z = true → seeThere y = true := by
  intro f y z h
  induction h with
  | nil f => exact fun hh => hh
  | keep hrest ih =>
    rename_i f c y' z'
    intro hh
    simp only [seeThere, Bool.or_eq_true, Bool.and_eq_true] at hh
    rcases hh with ⟨h1, h2⟩ | hh
    · rw [show seeW = 's' :: ['e', 'e'] from rfl, firstIs_cons_iff] at h1
      obtain ⟨rfl, h1'⟩ := h1
      rw [show isLetterCh 's' = true from by decide] at hrest
      obtain ⟨y₂, rfl, hdel⟩ := NLDel_prefix ['e', 'e'] (by decide) y' z'
        (by simpa using hrest) h1'
      have h3 : hasSub thereW y₂ = true :=
        NLDel_hasSub_gen thereW (by decide) (by simpa using hdel) h2
      simp only [seeThere, Bool.or_eq_true, Bool.and_eq_true]
      refine Or.inl ⟨?_, ?_⟩
      · rw [show seeW = 's' :: ['e', 'e'] from rfl, firstIs_cons_iff]
        exact ⟨rfl, firstIs_append_self _ _⟩
      · simpa using h3
    · exact seeThere_cons _ _ (ih hh)
  | subst hc hd hrest ih =>
    rename_i f c d y' z'
    intro hh
    simp only [seeThere, Bool.or_eq_true, Bool.and_eq_true] at hh
    rcases hh with ⟨h1, -⟩ | hh
    · rw [show seeW = 's' :: ['e', 'e'] from rfl, firstIs_cons_iff] at h1
      obtain ⟨rfl, -⟩ := h1
      exact absurd hd (by decide)
    · exact seeThere_cons _ _ (ih hh)
  | drop hc hside hrest ih =>
    intro hh
    exact seeThere_cons _ _ (ih hh)

/-- Transfer of `hope ... see ... there` along `NLDel`. -/
theorem NLDel_hst : ∀ {f : Bool} {y z : List Char}, NLDel f y z →
    hopeSeeThere z = true → hopeSeeThere y = true := by
  intro f y z h
  induction h with
  | nil f => exact fun hh => hh
  | keep hrest ih =>
    rename_i f c y' z'
    intro hh
    simp only [hopeSeeThere, Bool.or_eq_true, Bool.and_eq_true] at hh
    rcases hh with ⟨h1, h2⟩ | hh
    · rw [show hopeW = 'h' :: ['o', 'p', 'e'] from rfl, firstIs_cons_iff] at h1
      obtain ⟨rfl, h1'⟩ := h1
      rw [show isLetterCh 'h' = true from by decide] at hrest
      obtain ⟨y₂, rfl, hdel⟩ := NLDel_prefix ['o', 'p', 'e'] (by decide) y' z'
        (by simpa using hrest) h1'
      have h3 : seeThere y₂ = true := NLDel_seeThere (by simpa using hdel) h2
      simp only [hopeSeeThere, Bool.or_eq_true, Bool.and_eq_true]
      refine Or.inl ⟨?_, ?_⟩
      · rw [show hopeW = 'h' :: ['o', 'p', 'e'] from rfl, firstIs_cons_iff]
        exact ⟨rfl, firstIs_append_self _ _⟩
      · simpa using h3
    · exact hopeSeeThere_cons _ _ (ih hh)
  | subst hc hd hrest ih =>
    rename_i f c d y' z'
    intro hh
    simp only [hopeSeeThere, Bool.or_eq_true, Bool.and_eq_true] at hh
    rcases hh with ⟨h1, -⟩ | hh
    · rw [show hopeW = 'h' :: ['o', 'p', 'e'] from rfl, firstIs_cons_iff] at h1
      obtain ⟨rfl, -⟩ := h1
      exact absurd hd (by decide)
    · exact hopeSeeThere_cons _ _ (ih hh)
  | drop hc hside hrest ih =>
    intro hh
    exact hopeSeeThere_cons _ _ (ih hh)

theorem pyLowerCh_letter (c : Char) : isLetterCh (pyLowerCh c) = isLetterCh c := by
  unfold pyLowerCh
  by_cases hA : c = 'A'
  · subst hA; rfl
  rw [if_neg hA]
  by_cases hB : c = 'B'
  · subst hB; rfl
  rw [if_neg hB]
  by_cases hC : c = 'C'
  · subst hC; rfl
  rw [if_neg hC]
  by_cases hD : c = 'D'
  · subst hD; rfl
  rw [if_neg hD]
  by_cases hE : c = 'E'
  · subst hE; rfl
  rw [if_neg hE]
  by_cases hF : c = 'F'
  · subst hF; rfl
  rw [if_neg hF]
  by_cases hG : c = 'G'
  · subst hG; rfl
  rw [if_neg hG]
  by_cases hH : c = 'H'
  · subst hH; rfl
  rw [if_neg hH]
  by_cases hI : c = 'I'
  · subst hI; rfl
  rw [if_neg hI]
  by_cases hJ : c = 'J'
  · subst hJ; rfl
  rw [if_neg hJ]
  by_cases hK : c = 'K'
  · subst hK; rfl
  rw [if_neg hK]
  by_cases hL : c = 'L'
  · subst hL; rfl
  rw [if_neg hL]
  by_cases hM : c = 'M'
  · subst hM; rfl
  rw [if_neg hM]
  by_cases hN : c = 'N'
  · subst hN; rfl
  rw [if_neg hN]
  by_cases hO : c = 'O'
  · subst hO; rfl
  rw [if_neg hO]
  by_cases hP : c = 'P'
  · subst hP; rfl
  rw [if_neg hP]
  by_cases hQ : c = 'Q'
  · subst hQ; rfl
  rw [if_neg hQ]
  by_cases hR : c = 'R'
  · subst hR; rfl
  rw [if_neg hR]
  by_cases hS : c = 'S'
  · subst hS; rfl
  rw [if_neg hS]
  by_cases hT : c = 'T'
  · subst hT; rfl
  rw [if_neg hT]
  by_cases hU : c = 'U'
  · subst hU; rfl
  rw [if_neg hU]
  by_cases hV : c = 'V'
  · subst hV; rfl
  rw [if_neg hV]
  by_cases hW : c = 'W'
  · subst hW; rfl
  rw [if_neg hW]
  by_cases hX : c = 'X'
  · subst hX; rfl
  rw [if_neg hX]
  by_cases hY : c = 'Y'
  · subst hY; rfl
  rw [if_neg hY]
  by_cases hZ : c = 'Z'
  · subst hZ; rfl
  rw [if_neg hZ]

theorem pyLowerCh_nl (c : Char) : pyLowerCh c = '\n' ↔ c = '\n' := by
  unfold pyLowerCh
  by_cases hA : c = 'A'
  · subst hA; decide
  rw [if_neg hA]
  by_cases hB : c = 'B'
  · subst hB; decide
  rw [if_neg hB]
  by_cases hC : c = 'C'
  · subst hC; decide
  rw [if_neg hC]
  by_cases hD : c = 'D'
  · subst hD; decide
  rw [if_neg hD]
  by_cases hE : c = 'E'
  · subst hE; decide
  rw [if_neg hE]
  by_cases hF : c = 'F'
  · subst hF; decide
  rw [if_neg hF]
  by_cases hG : c = 'G'
  · subst hG; decide
  rw [if_neg hG]
  by_cases hH : c = 'H'
  · subst hH; decide
  rw [if_neg hH]
  by_cases hI : c = 'I'
  · subst hI; decide
  rw [if_neg hI]
  by_cases hJ : c = 'J'
  · subst hJ; decide
  rw [if_neg hJ]
  by_cases hK : c = 'K'
  · subst hK; decide
  rw [if_neg hK]
  by_cases hL : c = 'L'
  · subst hL; decide
  rw [if_neg hL]
  by_cases hM : c = 'M'
  · subst hM; decide
  rw [if_neg hM]
  by_cases hN : c = 'N'
  · subst hN; decide
  rw [if_neg hN]
  by_cases hO : c = 'O'
  · subst hO; decide
  rw [if_neg hO]
  by_cases hP : c = 'P'
  · subst hP; decide
  rw [if_neg hP]
  by_cases hQ : c = 'Q'
  · subst hQ; decide
  rw [if_neg hQ]
  by_cases hR : c = 'R'
  · subst hR; decide
  rw [if_neg hR]
  by_cases hS : c = 'S'
  · subst hS; decide
  rw [if_neg hS]
  by_cases hT : c = 'T'
  · subst hT; decide
  rw [if_neg hT]
  by_cases hU : c = 'U'
  · subst hU; decide
  rw [if_neg hU]
  by_cases hV : c = 'V'
  · subst hV; decide
  rw [if_neg hV]
  by_cases hW : c = 'W'
  · subst hW; decide
  rw [if_neg hW]
  by_cases hX : c = 'X'
  · subst hX; decide
  rw [if_neg hX]
  by_cases hY : c = 'Y'
  · subst hY; decide
  rw [if_neg hY]
  by_cases hZ : c = 'Z'
  · subst hZ; decide
  rw [if_neg hZ]

/-- `NLDel` is preserved by lowercasing both sides. -/
theorem NLDel_map_lower : ∀ {f : Bool} {y z : List Char}, NLDel f y z →
    NLDel f (pyLower y) (pyLower z) := by
  intro f y z h
  induction h with
  | nil f => exact NLDel.nil f
  | keep hrest ih =>
    rename_i f c y' z'
    simp only [pyLower, List.map_cons]
    refine NLDel.keep ?_
    rw [pyLowerCh_letter]
    exact ih
  | subst hc hd hrest ih =>
    rename_i f c d y' z'
    simp only [pyLower, List.map_cons]
    exact NLDel.subst (by rw [pyLowerCh_letter]; exact hc)
      (by rw [pyLowerCh_letter]; exact hd) ih
  | drop hc hside hrest ih =>
    rename_i f c y' z'
    simp only [pyLower, List.map_cons]
    refine NLDel.drop (by rw [pyLowerCh_letter]; exact hc) ?_ ih
    rcases hside with hside | hside
    · exact Or.inl hside
    · right
      cases z' with
      | nil => exact trivial
      | cons a w =>
        simp only [pyLower, List.map_cons, headNonLetter] at hside ⊢
        rw [pyLowerCh_letter]
        exact hside

/-- Run-collapsing reading of `' '.join(text.split())`: every whitespace run
becomes one space and a trailing run is dropped.  `joinWords_pySplit_eq` below proves
it equal to `joinWords (pySplit ·)` once the leading run is removed. -/
def collapseCore : List Char → List Char
  | [] => []
  | c :: r =>
    if isPySpace c then
      match h : r.dropWhile isPySpace with
      | [] => []
      | d :: r2 => ' ' :: collapseCore (d :: r2)
    else c :: collapseCore r
termination_by l => l.length
decreasing_by
  · simp only [List.length_cons]
    have h1 : (r.dropWhile isPySpace).length ≤ r.length :=
      (List.dropWhile_sublist isPySpace).length_le
    rw [h] at h1
    simp only [List.length_cons] at h1
    omega
  · simp only [List.length_cons]
    omega

theorem cc_nonws {c : Char} (h : isPySpace c = false) (r : List Char) :
    collapseCore (c :: r) = c :: collapseCore r := by
  rw [collapseCore]
  simp [h]

theorem cc_ws_nil {c : Char} (h : isPySpace c = true) {r : List Char}
    (hdw : r.dropWhile isPySpace = []) : collapseCore (c :: r) = [] := by
  rw [collapseCore]
  simp only [h, if_true]
  split
  · rfl
  · rename_i d r2 heq
    rw [hdw] at heq
    exact absurd heq (by simp)

theorem cc_ws_cons {c : Char} (h : isPySpace c = true) {r : List Char} {d : Char}
    {r2 : List Char} (hdw : r.dropWhile isPySpace = d :: r2) :
    collapseCore (c :: r) = ' ' :: collapseCore (d :: r2) := by
  rw [collapseCore]
  simp only [h, if_true]
  split
  · rename_i heq
    rw [hdw] at heq
    exact absurd heq (by simp)
  · rename_i d' r2' heq
    rw [hdw] at heq
    injection heq with h1 h2
    subst h1
    subst h2
    rfl

theorem joinWords_cons (w : List Char) (ws : List (List Char)) :
    joinWords (w :: ws) = w ++ (if ws.isEmpty then [] else ' ' :: joinWords ws) := by
  cases ws <;> simp [joinWords]

theorem wordsAux_ne_nil : ∀ (r cur : List Char), cur ≠ [] → wordsAux cur r ≠ [] := by
  intro r
  induction r with
  | nil =>
    intro cur h
    simp [wordsAux, h]
  | cons c r' ih =>
    intro cur h
    by_cases hc : isPySpace c = true
    · simp only [wordsAux, hc, if_true]
      rw [if_neg (by simp [h])]
      simp
    · simp only [wordsAux, hc, if_false]
      exact ih (c :: cur) (by simp)

theorem wordsAux_nil_iff : ∀ (r : List Char),
    wordsAux [] r = [] ↔ r.dropWhile isPySpace = [] := by
  intro r
  induction r with
  | nil => simp [wordsAux]
  | cons c r' ih =>
    by_cases hc : isPySpace c = true
    · simp only [wordsAux, hc, if_true, List.isEmpty_nil, List.dropWhile_cons_of_pos hc]
      simpa using ih
    · simp only [wordsAux, hc, if_false,
        List.dropWhile_cons_of_neg (by simp [hc] : ¬ isPySpace c = true)]
      constructor
      · intro h
        exact absurd h (wordsAux_ne_nil r' [c] (by simp))
      · intro h
        exact absurd h (by simp)

theorem joinWords_wordsAux : ∀ (l v : List Char),
    joinWords (wordsAux v l) =
      (if v.isEmpty then collapseCore (l.dropWhile isPySpace)
       else v.reverse ++ collapseCore l) := by
  intro l
  induction l with
  | nil =>
    intro v
    cases v with
    | nil => simp [wordsAux, joinWords, collapseCore]
    | cons a v' => simp [wordsAux, joinWords, collapseCore]
  | cons c r ih =>
    intro v
    by_cases hc : isPySpace c = true
    · cases v with
      | nil =>
        simp only [wordsAux, hc, if_true, List.isEmpty_nil, List.dropWhile_cons_of_pos hc]
        simpa using ih []
      | cons a v' =>
        simp only [wordsAux, hc, if_true]
        rw [if_neg (by simp)]
        rw [joinWords_cons]
        by_cases hW : wordsAux [] r = []
        · rw [hW]
          have hdw : r.dropWhile isPySpace = [] := (wordsAux_nil_iff r).mp hW
          rw [cc_ws_nil hc hdw]
          simp
        · rw [if_neg (by simpa using hW)]
          have hjr := ih []
          simp only [List.isEmpty_nil, if_true] at hjr
          cases hdw : r.dropWhile isPySpace with
          | nil => exact absurd ((wordsAux_nil_iff r).mpr hdw) hW
          | cons d r2 =>
            rw [cc_ws_cons hc hdw]
            rw [hjr, hdw]
            simp
    · rw [Bool.not_eq_true] at hc
      have hstep : wordsAux v (c :: r) = wordsAux (c :: v) r := by
        simp [wordsAux, hc]
      rw [hstep, ih (c :: v)]
      rw [if_neg (by simp)]
      rw [List.dropWhile_cons_of_neg (by simp [hc] : ¬ isPySpace c = true), cc_nonws hc]
      cases v with
      | nil => simp
      | cons a v' => simp

/-- `' '.join(text.split())` as a single run-collapsing pass. -/
theorem joinWords_pySplit_eq (l : List Char) :
    joinWords (pySplit l) = collapseCore (l.dropWhile isPySpace) := by
  have := joinWords_wordsAux l []
  simpa [pySplit] using this

theorem NLDel_all_nonletter_drop : ∀ (run : List Char) (f : Bool) (y z : List Char),
    (∀ c ∈ run, isLetterCh c = false) → (f = true ∨ headNonLetter z) →
    NLDel f y z → NLDel f (run ++ y) z := by
  intro run
  induction run with
  | nil => intro f y z _ _ h; simpa using h
  | cons c rs ih =>
    intro f y z hrun hside h
    exact NLDel.drop (hrun c (by simp)) hside
      (ih f y z (fun d hd => hrun d (by simp [hd])) hside h)

theorem NLDel_all_to_nil : ∀ (l : List Char) (f : Bool),
    (∀ c ∈ l, isLetterCh c = false) → NLDel f l [] := by
  intro l
  induction l with
  | nil => intro f _; exact NLDel.nil f
  | cons c r ih =>
    intro f h
    exact NLDel.drop (h c (by simp)) (Or.inr trivial)
      (ih f (fun d hd => h d (by simp [hd])))

/-- The run-collapsing pass is an `NLDel` instance. -/
theorem NLDel_collapseCore : ∀ (n : ℕ) (l : List Char), l.length ≤ n →
    ∀ (f : Bool), NLDel f l (collapseCore l) := by
  intro n
  induction n with
  | zero =>
    intro l hl f
    have hnil : l = [] := by
      cases l with
      | nil => rfl
      | cons a r => simp at hl
    subst hnil
    rw [show collapseCore [] = [] from by rw [collapseCore]]
    exact NLDel.nil f
  | succ n ih =>
    intro l hl f
    cases l with
    | nil =>
      rw [show collapseCore [] = [] from by rw [collapseCore]]
      exact NLDel.nil f
    | cons c r =>
      by_cases hc : isPySpace c = true
      · cases hdw : r.dropWhile isPySpace with
        | nil =>
          rw [cc_ws_nil hc hdw]
          refine NLDel_all_to_nil _ _ ?_
          intro d hd
          rcases List.mem_cons.mp hd with rfl | hd
          · exact ws_not_letter hc
          · exact ws_not_letter ((List.dropWhile_eq_nil_iff).mp hdw d hd)
        | cons d r2 =>
          rw [cc_ws_cons hc hdw]
          refine NLDel.subst (ws_not_letter hc) (by decide) ?_
          have hr : r = r.takeWhile isPySpace ++ (d :: r2) := by
            rw [← hdw, List.takeWhile_append_dropWhile]
          rw [hr]
          refine NLDel_all_nonletter_drop _ _ _ _ ?_ (Or.inl rfl) ?_
          · intro e he
            exact ws_not_letter (List.mem_takeWhile_imp he)
          · refine ih (d :: r2) ?_ true
            have h1 : (d :: r2).length ≤ r.length := by
              rw [← hdw]
              exact (List.dropWhile_sublist isPySpace).length_le
            simp only [List.length_cons] at hl
            omega
      · rw [Bool.not_eq_true] at hc
        rw [cc_nonws hc]
        refine NLDel.keep ?_
        refine ih r ?_ _
        simp only [List.length_cons] at hl
        omega

/-- The punctuation-space scrub is an `NLDel` instance. -/
theorem NLDel_spaceFix : ∀ (n : ℕ) (l : List Char), l.length ≤ n →
    ∀ (f : Bool), NLDel f l (spaceFix l) := by
  intro n
  induction n with
  | zero =>
    intro l hl f
    have hnil : l = [] := by
      cases l with
      | nil => rfl
      | cons a r => simp at hl
    subst hnil
    exact NLDel.nil f
  | succ n ih =>
    intro l hl f
    cases l with
    | nil => exact NLDel.nil f
    | cons c r =>
      by_cases hcond : (isWordCh c && headWs r && headStop (r.dropWhile isPySpace)) = true
      · simp only [Bool.and_eq_true] at hcond
        obtain ⟨⟨hw, hws⟩, hstop⟩ := hcond
        cases hdw : r.dropWhile isPySpace with
        | nil => rw [hdw] at hstop; exact absurd hstop (by simp [headStop])
        | cons p r2 =>
          rw [hdw] at hstop
          simp only [headStop] at hstop
          have hrun : r.takeWhile isPySpace ≠ [] := by
            cases r with
            | nil => exact absurd hws (by simp [headWs])
            | cons a r' =>
              simp only [headWs] at hws
              rw [List.takeWhile_cons_of_pos hws]
              simp
          have hr : r = r.takeWhile isPySpace ++ (p :: r2) := by
            rw [← hdw, List.takeWhile_append_dropWhile]
          rw [hr, spaceFix_match c (r.takeWhile isPySpace) p r2 hw hrun
            (fun d hd => List.mem_takeWhile_imp hd) hstop]
          refine NLDel.keep ?_
          refine NLDel_all_nonletter_drop _ _ _ _ ?_ (Or.inr (stop_not_letter hstop)) ?_
          · intro e he
            exact ws_not_letter (List.mem_takeWhile_imp he)
          · have hp : isLetterCh p = false := stop_not_letter hstop
            have hkeep : NLDel (!isLetterCh p) r2 (spaceFix r2) := by
              refine ih r2 ?_ _
              have h1 : (p :: r2).length ≤ r.length := by
                rw [← hdw]
                exact (List.dropWhile_sublist isPySpace).length_le
              simp only [List.length_cons] at hl h1
              omega
            exact NLDel.keep hkeep
      · rw [Bool.not_eq_true] at hcond
        rw [spaceFix_skip c r hcond]
        refine NLDel.keep ?_
        refine ih r ?_ _
        simp only [List.length_cons] at hl
        omega

theorem NLDel_collapse_full (x : List Char) :
    NLDel true x (collapseCore (x.dropWhile isPySpace)) := by
  have h := NLDel_collapseCore (x.dropWhile isPySpace).length (x.dropWhile isPySpace) le_rfl true
  have h2 : NLDel true (x.takeWhile isPySpace ++ x.dropWhile isPySpace)
      (collapseCore (x.dropWhile isPySpace)) :=
    NLDel_all_nonletter_drop _ _ _ _
      (fun e he => ws_not_letter (List.mem_takeWhile_imp he)) (Or.inl rfl) h
  rwa [List.takeWhile_append_dropWhile] at h2

theorem rstrip_decomp (s : List Char) :
    s = rstripTrail s ++ (s.reverse.takeWhile isTrailCh).reverse := by
  rw [rstripTrail, ← List.reverse_append, List.takeWhile_append_dropWhile, List.reverse_reverse]

/-- The non-special branch of `clean_text` never creates a special-case match
on newline-free input. -/
theorem no_new_special (s : List Char)
    (hnl : ∀ c ∈ s, ¬ c = '\n')
    (hno : hasSpecialCase s = false) :
    hasSpecialCase (spaceFix (joinWords (pySplit (rstripTrail s)))) = false := by
  by_contra hcon
  rw [Bool.not_eq_false] at hcon
  have h1 : hopeSeeThere (pyLower (spaceFix (joinWords (pySplit (rstripTrail s))))) = true :=
    specScan_imp_hst _ hcon
  have hsf : NLDel true (joinWords (pySplit (rstripTrail s)))
      (spaceFix (joinWords (pySplit (rstripTrail s)))) :=
    NLDel_spaceFix _ _ le_rfl true
  have h2 : hopeSeeThere (pyLower (joinWords (pySplit (rstripTrail s)))) = true :=
    NLDel_hst (NLDel_map_lower hsf) h1
  rw [joinWords_pySplit_eq] at h2
  have h3 : hopeSeeThere (pyLower (rstripTrail s)) = true :=
    NLDel_hst (NLDel_map_lower (NLDel_collapse_full (rstripTrail s))) h2
  have h4 : hopeSeeThere (pyLower s) = true := by
    rw [rstrip_decomp s, pyLower, List.map_append]
    exact hopeSeeThere_mono _ _ h3
  have h5 : specScan (pyLower s) = true := by
    rw [specScan_eq_hst_of_noNL]
    · exact h4
    · intro c hc
      simp only [pyLower, List.mem_map] at hc
      obtain ⟨d, hd, rfl⟩ := hc
      intro hcontra
      exact hnl d hd ((pyLowerCh_nl d).mp hcontra)
  rw [hasSpecialCase] at hno
  rw [h5] at hno
  exact absurd hno (by simp)

/-- Every whitespace character is a single `' '` between non-whitespace
characters, and the list does not end in whitespace. -/
def wsOk : List Char → Bool
  | [] => true
  | [c] => !isPySpace c
  | c :: d :: r => (if isPySpace c then decide (c = ' ') && !isPySpace d else true) && wsOk (d :: r)

theorem wsOk_tail {c : Char} {r : List Char} (h : wsOk (c :: r) = true) : wsOk r = true := by
  cases r with
  | nil => rfl
  | cons d r' =>
    rw [wsOk, Bool.and_eq_true] at h
    exact h.2

theorem headWs_dropWhile (l : List Char) : headWs (l.dropWhile isPySpace) = false := by
  induction l with
  | nil => rfl
  | cons c r ih =>
    by_cases hc : isPySpace c = true
    · rw [List.dropWhile_cons_of_pos hc]
      exact ih
    · rw [List.dropWhile_cons_of_neg hc]
      simp only [headWs, Bool.not_eq_true] at hc ⊢
      exact hc

theorem dropWhile_id_of_headWs {l : List Char} (h : headWs l = false) :
    l.dropWhile isPySpace = l := by
  cases l with
  | nil => rfl
  | cons c r =>
    simp only [headWs] at h
    rw [List.dropWhile_cons_of_neg (by simp [h])]

theorem cc_wsOk : ∀ (n : ℕ) (l : List Char), l.length ≤ n → wsOk (collapseCore l) = true := by
  intro n
  induction n with
  | zero =>
    intro l hl
    have hnil : l = [] := by
      cases l with
      | nil => rfl
      | cons a r => simp at hl
    subst hnil
    rw [show collapseCore [] = [] from by rw [collapseCore]]
    rfl
  | succ n ih =>
    intro l hl
    cases l with
    | nil =>
      rw [show collapseCore [] = [] from by rw [collapseCore]]
      rfl
    | cons c r =>
      simp only [List.length_cons] at hl
      by_cases hc : isPySpace c = true
      · cases hdw : r.dropWhile isPySpace with
        | nil =>
          rw [cc_ws_nil hc hdw]
          rfl
        | cons d r2 =>
          rw [cc_ws_cons hc hdw]
          have hd : isPySpace d = false := by
            have := headWs_dropWhile r
            rw [hdw] at this
            simpa [headWs] using this
          have hlen : (d :: r2).length ≤ n := by
            have h1 : (d :: r2).length ≤ r.length := by
              rw [← hdw]
              exact (List.dropWhile_sublist isPySpace).length_le
            omega
          have hcc := ih (d :: r2) hlen
          rw [cc_nonws hd] at hcc ⊢
          rw [wsOk]
          simp only [Bool.and_eq_true]
          refine ⟨?_, hcc⟩
          simp [hd]
      · rw [Bool.not_eq_true] at hc
        rw [cc_nonws hc]
        have hlen : r.length ≤ n := by omega
        have hcc := ih r hlen
        cases hr : collapseCore r with
        | nil => simp [wsOk, hc]
        | cons e w =>
          rw [hr] at hcc
          rw [wsOk]
          simp only [Bool.and_eq_true]
          exact ⟨by simp [hc], hcc⟩

theorem cc_id_of_good : ∀ (n : ℕ) (l : List Char), l.length ≤ n →
    headWs l = false → wsOk l = true → collapseCore l = l := by
  intro n
  induction n with
  | zero =>
    intro l hl _ _
    have hnil : l = [] := by
      cases l with
      | nil => rfl
      | cons a r => simp at hl
    subst hnil
    rw [collapseCore]
  | succ n ih =>
    intro l hl hhd hok
    cases l with
    | nil => rw [collapseCore]
    | cons c r =>
      simp only [headWs] at hhd
      simp only [List.length_cons] at hl
      rw [cc_nonws hhd]
      cases r with
      | nil => rw [collapseCore]
      | cons d r2 =>
        by_cases hd : isPySpace d = true
        · -- wsOk forces d = ' ' and r2 to start with a non-whitespace character
          rw [wsOk, Bool.and_eq_true] at hok
          obtain ⟨-, hok2⟩ := hok
          cases r2 with
          | nil =>
            rw [wsOk, hd] at hok2
            exact absurd hok2 (by simp)
          | cons e r3 =>
            rw [wsOk, Bool.and_eq_true] at hok2
            obtain ⟨hpair, hok3⟩ := hok2
            rw [if_pos hd, Bool.and_eq_true] at hpair
            obtain ⟨hsp, he⟩ := hpair
            rw [Bool.not_eq_true'] at he
            have hdw : (e :: r3).dropWhile isPySpace = e :: r3 :=
              dropWhile_id_of_headWs (by simpa [headWs] using he)
            have hcc : collapseCore (d :: e :: r3) = ' ' :: collapseCore (e :: r3) := by
              refine cc_ws_cons hd ?_
              exact hdw
            rw [hcc]
            have hrec : collapseCore (e :: r3) = e :: r3 := by
              refine ih (e :: r3) (by simp at hl ⊢; omega) (by simpa [headWs] using he) hok3
            rw [hrec]
            rw [decide_eq_true_eq] at hsp
            rw [← hsp]
        · rw [Bool.not_eq_true] at hd
          have hrec : collapseCore (d :: r2) = d :: r2 := by
            refine ih (d :: r2) (by omega) (by simpa [headWs] using hd) (wsOk_tail hok)
          rw [hrec]

/-- No occurrence of a word character, a whitespace character and a stop
character in three consecutive positions: on whitespace-normal text this is
exactly the absence of a `(\w)\s+([.,;!?])` match in the source regex of
`clean_text`. -/
def noWSP : List Char → Bool
  | a :: s :: p :: r => !(isWordCh a && isPySpace s && isStopCh p) && noWSP (s :: p :: r)
  | _ => true

/-- The list starts with a whitespace character followed by a stop character. -/
def headSP : List Char → Bool
  | s :: p :: _ => isPySpace s && isStopCh p
  | _ => false

theorem noWSP_tail {c : Char} {r : List Char} (h : noWSP (c :: r) = true) :
    noWSP r = true := by
  cases r with
  | nil => rfl
  | cons d r1 =>
    cases r1 with
    | nil => rfl
    | cons e r2 =>
      rw [noWSP, Bool.and_eq_true] at h
      exact h.2

theorem noWSP_cons {c : Char} {out : List Char} (h1 : noWSP out = true)
    (h2 : isWordCh c = false ∨ headSP out = false) : noWSP (c :: out) = true := by
  cases out with
  | nil => rfl
  | cons d r =>
    cases r with
    | nil => rfl
    | cons e r2 =>
      rw [noWSP, Bool.and_eq_true]
      refine ⟨?_, h1⟩
      rcases h2 with h2 | h2
      · simp [h2]
      · have h4 : (isPySpace d && isStopCh e) = false := h2
        have h3 : isPySpace d = false ∨ isStopCh e = false := by
          cases hd2 : isPySpace d
          · exact Or.inl rfl
          · cases he2 : isStopCh e
            · exact Or.inr rfl
            · rw [hd2, he2] at h4
              exact absurd h4 (by simp)
        rcases h3 with h3 | h3 <;> simp [h3]

theorem noWSP_headSP {d : Char} {r : List Char} (h : noWSP (d :: r) = true)
    (hd : isWordCh d = true) : headSP r = false := by
  cases r with
  | nil => rfl
  | cons p r1 =>
    cases r1 with
    | nil => rfl
    | cons q r2 =>
      rw [noWSP, Bool.and_eq_true] at h
      have h1 := h.1
      rw [hd] at h1
      simp only [Bool.true_and] at h1
      rw [Bool.not_eq_true'] at h1
      exact h1

theorem headSP_cons_nonws {c : Char} {out : List Char} (hc : isPySpace c = false) :
    headSP (c :: out) = false := by
  cases out with
  | nil => rfl
  | cons d r => simp [headSP, hc]

theorem wsOk_cons_nonws {c : Char} {out : List Char} (hc : isPySpace c = false)
    (h : wsOk out = true) : wsOk (c :: out) = true := by
  cases out with
  | nil => simp [wsOk, hc]
  | cons d r =>
    rw [wsOk, Bool.and_eq_true]
    exact ⟨by simp [hc], h⟩

theorem wsOk_cons_space {d : Char} {rest : List Char} (hd : isPySpace d = false)
    (h : wsOk (d :: rest) = true) : wsOk (' ' :: d :: rest) = true := by
  rw [wsOk, Bool.and_eq_true]
  refine ⟨?_, h⟩
  have h1 : isPySpace ' ' = true := by decide
  simp [h1, hd]

theorem wsOk_ws_head {c : Char} {r : List Char} (hok : wsOk (c :: r) = true)
    (hc : isPySpace c = true) : c = ' ' ∧ ∃ d r2, r = d :: r2 ∧ isPySpace d = false := by
  cases r with
  | nil =>
    rw [wsOk, hc] at hok
    exact absurd hok (by decide)
  | cons d r2 =>
    rw [wsOk, Bool.and_eq_true] at hok
    have hpair := hok.1
    rw [if_pos hc, Bool.and_eq_true] at hpair
    obtain ⟨h1, h2⟩ := hpair
    rw [decide_eq_true_eq] at h1
    rw [Bool.not_eq_true'] at h2
    exact ⟨h1, d, r2, rfl, h2⟩

theorem sfGo_nil (af : Bool) (pend : List Char) : sfGo af pend [] = pend.reverse := by
  rw [sfGo]

theorem sfGo_cons_nonws {c : Char} (r : List Char) (hc : isPySpace c = false) (af : Bool) :
    sfGo af [] (c :: r) = c :: sfGo (isWordCh c) [] r := by
  rw [sfGo, if_neg (by simp [hc]), if_neg (by simp)]
  rfl

theorem sfGo_ws_false {c : Char} (r : List Char) (hc : isPySpace c = true) :
    sfGo false [] (c :: r) = c :: sfGo false [] r := by
  rw [sfGo, if_pos hc]
  simp

theorem sfGo_ws_true {c : Char} (r : List Char) (hc : isPySpace c = true) (pend : List Char) :
    sfGo true pend (c :: r) = sfGo true (c :: pend) r := by
  rw [sfGo, if_pos hc]
  simp

theorem sfGo_stop_drop {c : Char} (r : List Char) (hc : isStopCh c = true)
    (p0 : Char) (pend : List Char) :
    sfGo true (p0 :: pend) (c :: r) = c :: sfGo false [] r := by
  rw [sfGo, if_neg (by simp [stop_not_ws hc]), if_pos (by simp [hc])]

theorem sfGo_flush_one {c : Char} (r : List Char) (hc : isPySpace c = false)
    (hns : isStopCh c = false) (p0 : Char) (af : Bool) :
    sfGo af [p0] (c :: r) = p0 :: c :: sfGo (isWordCh c) [] r := by
  rw [sfGo, if_neg (by simp [hc]), if_neg (by simp [hns])]
  rfl

/-- On whitespace-normal input (`wsOk`), `sfGo` produces whitespace-normal
output with no `(\w)\s+([.,;!?])` pattern left; moreover when scanning starts
in the after-word state the output never begins with whitespace followed by a
stop character. -/
theorem sfGo_props : ∀ (n : ℕ) (l : List Char), l.length ≤ n → wsOk l = true →
    ∀ af : Bool,
      wsOk (sfGo af [] l) = true ∧ noWSP (sfGo af [] l) = true ∧
      (af = true → headSP (sfGo af [] l) = false) := by
  intro n
  induction n with
  | zero =>
    intro l hl hok af
    have hnil : l = [] := by
      cases l with
      | nil => rfl
      | cons a r => simp at hl
    subst hnil
    rw [sfGo_nil]
    exact ⟨rfl, rfl, fun _ => rfl⟩
  | succ n ih =>
    intro l hl hok af
    cases l with
    | nil =>
      rw [sfGo_nil]
      exact ⟨rfl, rfl, fun _ => rfl⟩
    | cons c r =>
      by_cases hc : isPySpace c = true
      · obtain ⟨hcsp, d, r2, rfl, hd⟩ := wsOk_ws_head hok hc
        subst hcsp
        simp only [List.length_cons] at hl
        cases af with
        | false =>
          rw [sfGo_ws_false (d :: r2) hc, sfGo_cons_nonws r2 hd false]
          have hIH := ih (d :: r2) (by simp only [List.length_cons]; omega)
            (wsOk_tail hok) false
          rw [sfGo_cons_nonws r2 hd false] at hIH
          obtain ⟨hw1, hw2, -⟩ := hIH
          refine ⟨wsOk_cons_space hd hw1, noWSP_cons hw2 (Or.inl (by decide)), ?_⟩
          intro h
          exact absurd h (by simp)
        | true =>
          rw [sfGo_ws_true (d :: r2) hc []]
          by_cases hstop : isStopCh d = true
          · rw [sfGo_stop_drop r2 hstop ' ' []]
            have hIH := ih r2 (by omega) (wsOk_tail (wsOk_tail hok)) false
            obtain ⟨hw1, hw2, -⟩ := hIH
            refine ⟨wsOk_cons_nonws hd hw1, noWSP_cons hw2 (Or.inl (stop_not_word hstop)), ?_⟩
            intro _
            exact headSP_cons_nonws hd
          · rw [Bool.not_eq_true] at hstop
            rw [sfGo_flush_one r2 hd hstop ' ' true]
            have hIH := ih r2 (by omega) (wsOk_tail (wsOk_tail hok)) (isWordCh d)
            obtain ⟨hw1, hw2, hw3⟩ := hIH
            have h2 : isWordCh d = false ∨ headSP (sfGo (isWordCh d) [] r2) = false := by
              cases hw : isWordCh d
              · exact Or.inl rfl
              · exact Or.inr (hw ▸ hw3 hw)
            refine ⟨wsOk_cons_space hd (wsOk_cons_nonws hd hw1),
              noWSP_cons (noWSP_cons hw2 h2) (Or.inl (by decide)), ?_⟩
            intro _
            simp [headSP, hstop]
      · rw [Bool.not_eq_true] at hc
        simp only [List.length_cons] at hl
        rw [sfGo_cons_nonws r hc af]
        have hIH := ih r (by omega) (wsOk_tail hok) (isWordCh c)
        obtain ⟨hw1, hw2, hw3⟩ := hIH
        have h2 : isWordCh c = false ∨ headSP (sfGo (isWordCh c) [] r) = false := by
          cases hw : isWordCh c
          · exact Or.inl rfl
          · exact Or.inr (hw ▸ hw3 hw)
        refine ⟨wsOk_cons_nonws hc hw1, noWSP_cons hw2 h2, ?_⟩
        intro _
        exact headSP_cons_nonws hc

/-- On whitespace-normal input with no `(\w)\s+([.,;!?])` pattern, `sfGo`
is the identity: the regex substitution has nothing left to rewrite. -/
theorem sfGo_id : ∀ (n : ℕ) (l : List Char), l.length ≤ n → wsOk l = true →
    noWSP l = true → ∀ af : Bool, (af = true → headSP l = false) →
    sfGo af [] l = l := by
  intro n
  induction n with
  | zero =>
    intro l hl hok hno af haf
    have hnil : l = [] := by
      cases l with
      | nil => rfl
      | cons a r => simp at hl
    subst hnil
    rw [sfGo_nil]
    rfl
  | succ n ih =>
    intro l hl hok hno af haf
    cases l with
    | nil =>
      rw [sfGo_nil]
      rfl
    | cons c r =>
      by_cases hc : isPySpace c = true
      · obtain ⟨hcsp, d, r2, rfl, hd⟩ := wsOk_ws_head hok hc
        subst hcsp
        simp only [List.length_cons] at hl
        cases af with
        | false =>
          rw [sfGo_ws_false (d :: r2) hc]
          congr 1
          exact ih (d :: r2) (by simp only [List.length_cons]; omega)
            (wsOk_tail hok) (noWSP_tail hno) false (fun h => absurd h (by simp))
        | true =>
          have hsp := haf rfl
          have h4 : (isPySpace ' ' && isStopCh d) = false := hsp
          have hstop : isStopCh d = false := by
            rw [show isPySpace ' ' = true from by decide] at h4
            simpa using h4
          rw [sfGo_ws_true (d :: r2) hc [], sfGo_flush_one r2 hd hstop ' ' true]
          congr 2
          exact ih r2 (by omega) (wsOk_tail (wsOk_tail hok))
            (noWSP_tail (noWSP_tail hno)) (isWordCh d)
            (fun hw => noWSP_headSP (noWSP_tail hno) hw)
      · rw [Bool.not_eq_true] at hc
        simp only [List.length_cons] at hl
        rw [sfGo_cons_nonws r hc af]
        congr 1
        exact ih r (by omega) (wsOk_tail hok) (noWSP_tail hno) (isWordCh c)
          (fun hw => noWSP_headSP hno hw)

theorem getLast?_cons_of_ne {x a : Char} {l : List Char}
    (h : l.getLast? = some a) : (x :: l).getLast? = some a := by
  cases l with
  | nil => simp at h
  | cons y ys =>
    rw [List.getLast?_cons_cons]
    exact h

theorem dropWhile_head_not (p : Char → Bool) :
    ∀ (l : List Char) (c : Char), (l.dropWhile p).head? = some c → p c = false := by
  intro l
  induction l with
  | nil =>
    intro c h
    simp at h
  | cons a r ih =>
    intro c h
    by_cases ha : p a = true
    · rw [List.dropWhile_cons_of_pos ha] at h
      exact ih c h
    · rw [List.dropWhile_cons_of_neg ha] at h
      simp only [List.head?_cons, Option.some.injEq] at h
      subst h
      rw [Bool.not_eq_true] at ha
      exact ha

theorem dropWhile_id_of_head (p : Char → Bool) (l : List Char)
    (h : ∀ c, l.head? = some c → p c = false) : l.dropWhile p = l := by
  cases l with
  | nil => rfl
  | cons a r =>
    have ha := h a rfl
    rw [List.dropWhile_cons_of_neg (by simp [ha])]

theorem getLast?_dropWhile (p : Char → Bool) (a : Char) (hp : p a = false) :
    ∀ l : List Char, l.getLast? = some a → (l.dropWhile p).getLast? = some a := by
  intro l
  induction l with
  | nil =>
    intro h
    simp at h
  | cons c r ih =>
    intro h
    by_cases hc : p c = true
    · rw [List.dropWhile_cons_of_pos hc]
      cases r with
      | nil =>
        have hca : c = a := by simpa using h
        subst hca
        rw [hc] at hp
        exact absurd hp (by simp)
      | cons d r2 =>
        rw [List.getLast?_cons_cons] at h
        exact ih h
    · rw [List.dropWhile_cons_of_neg hc]
      exact h

theorem cc_getLast (a : Char) (ha : isPySpace a = false) :
    ∀ (n : ℕ) (l : List Char), l.length ≤ n → l.getLast? = some a →
      (collapseCore l).getLast? = some a := by
  intro n
  induction n with
  | zero =>
    intro l hl h
    have hnil : l = [] := by
      cases l with
      | nil => rfl
      | cons x r => simp at hl
    subst hnil
    simp at h
  | succ n ih =>
    intro l hl h
    cases l with
    | nil => simp at h
    | cons c r =>
      simp only [List.length_cons] at hl
      by_cases hc : isPySpace c = true
      · have hr : r ≠ [] := by
          intro he
          subst he
          have hca : c = a := by simpa using h
          subst hca
          rw [hc] at ha
          exact absurd ha (by simp)
        obtain ⟨e, r3, rfl⟩ := List.exists_cons_of_ne_nil hr
        rw [List.getLast?_cons_cons] at h
        have hdrop := getLast?_dropWhile isPySpace a ha (e :: r3) h
        cases hdw : (e :: r3).dropWhile isPySpace with
        | nil =>
          rw [hdw] at hdrop
          simp at hdrop
        | cons d r2 =>
          rw [hdw] at hdrop
          rw [cc_ws_cons hc hdw]
          have hlen : (d :: r2).length ≤ n := by
            have h1 : (d :: r2).length ≤ (e :: r3).length := by
              rw [← hdw]
              exact (List.dropWhile_sublist isPySpace).length_le
            simp only [List.length_cons] at h1 hl ⊢
            omega
          exact getLast?_cons_of_ne (ih (d :: r2) hlen hdrop)
      · rw [Bool.not_eq_true] at hc
        rw [cc_nonws hc]
        cases r with
        | nil =>
          have hca : c = a := by simpa using h
          subst hca
          rw [show collapseCore [] = [] from by rw [collapseCore]]
          simp
        | cons d r2 =>
          rw [List.getLast?_cons_cons] at h
          exact getLast?_cons_of_ne (ih (d :: r2) (by omega) h)

theorem sfGo_getLast (a : Char) (ha : isPySpace a = false) :
    ∀ (l : List Char), l.getLast? = some a → ∀ (af : Bool) (pend : List Char),
      (sfGo af pend l).getLast? = some a := by
  intro l
  induction l with
  | nil =>
    intro h
    simp at h
  | cons c r ih =>
    intro h af pend
    cases r with
    | nil =>
      have hca : c = a := by simpa using h
      subst hca
      rw [sfGo, if_neg (by simp [ha])]
      by_cases hcond : (isStopCh c && af && !pend.isEmpty) = true
      · rw [if_pos hcond]
        rw [show sfGo false [] ([] : List Char) = [] from rfl]
        simp
      · rw [if_neg hcond]
        rw [show sfGo (isWordCh c) [] ([] : List Char) = [] from rfl]
        simp
    | cons d r2 =>
      rw [List.getLast?_cons_cons] at h
      by_cases hc : isPySpace c = true
      · cases af with
        | false =>
          rw [sfGo, if_pos hc]
          simp only [Bool.false_eq_true, if_false]
          exact getLast?_cons_of_ne (ih h false [])
        | true =>
          rw [sfGo_ws_true (d :: r2) hc pend]
          exact ih h true (c :: pend)
      · rw [Bool.not_eq_true] at hc
        rw [sfGo, if_neg (by simp [hc])]
        by_cases hcond : (isStopCh c && af && !pend.isEmpty) = true
        · rw [if_pos hcond]
          exact getLast?_cons_of_ne (ih h false [])
        · rw [if_neg hcond]
          rw [List.getLast?_append]
          rw [getLast?_cons_of_ne (ih h (isWordCh c) [])]
          rfl

theorem ws_isTrail {c : Char} (h : isPySpace c = true) : isTrailCh c = true := by
  simp [isTrailCh, h]

theorem not_trail_not_ws {a : Char} (h : isTrailCh a = false) : isPySpace a = false := by
  cases hw : isPySpace a
  · rfl
  · rw [ws_isTrail hw] at h
    exact absurd h (by simp)

theorem cc_head {l : List Char} (h : headWs l = false) :
    headWs (collapseCore l) = false := by
  cases l with
  | nil =>
    rw [show collapseCore [] = [] from by rw [collapseCore]]
    rfl
  | cons c r =>
    simp only [headWs] at h
    rw [cc_nonws h]
    simp only [headWs]
    exact h

theorem spaceFix_head {l : List Char} (h : headWs l = false) :
    headWs (spaceFix l) = false := by
  cases l with
  | nil => rfl
  | cons c r =>
    simp only [headWs] at h
    rw [spaceFix, sfGo_cons_nonws r h false]
    simp only [headWs]
    exact h

theorem rstrip_id_of_getLast (p : Char → Bool) (l : List Char) (a : Char)
    (h : l.getLast? = some a) (hp : p a = false) :
    (l.reverse.dropWhile p).reverse = l := by
  have h1 : l.reverse.dropWhile p = l.reverse := by
    apply dropWhile_id_of_head
    intro c hc
    rw [List.head?_reverse, h, Option.some.injEq] at hc
    subst hc
    exact hp
  rw [h1, List.reverse_reverse]

theorem pyStrip_id_of (l : List Char) (hh : headWs l = false) (a : Char)
    (h : l.getLast? = some a) (ha : isPySpace a = false) : pyStrip l = l := by
  rw [pyStrip, dropWhile_id_of_headWs hh]
  exact rstrip_id_of_getLast isPySpace l a h ha

theorem rstripTrail_id_of (l : List Char) (a : Char)
    (h : l.getLast? = some a) (ha : isTrailCh a = false) : rstripTrail l = l := by
  rw [rstripTrail]
  exact rstrip_id_of_getLast isTrailCh l a h ha

theorem pyStrip_mem {c : Char} {t : List Char} (h : c ∈ pyStrip t) : c ∈ t := by
  rw [pyStrip, List.mem_reverse] at h
  have h1 := List.Sublist.subset (List.dropWhile_sublist isPySpace) h
  rw [List.mem_reverse] at h1
  exact List.Sublist.subset (List.dropWhile_sublist isPySpace) h1

theorem clean_text_eq (t : List Char) :
    clean_text t = if hasSpecialCase (pyStrip t) = true then replText
      else spaceFix (joinWords (pySplit (rstripTrail (pyStrip t)))) := rfl

/-- The non-special branch of `clean_text` yields a fixpoint of stripping,
trailing-run removal, whitespace collapsing and the space-before-punctuation
substitution, provided the input to the collapse step starts with a
non-whitespace character and ends with a character that the trailing-run
regex `[\s\-_]+$` would not remove. -/
theorem u_props (w0 : List Char) (hh : headWs w0 = false) (a : Char)
    (hl : w0.getLast? = some a) (hat : isTrailCh a = false) :
    pyStrip (spaceFix (collapseCore w0)) = spaceFix (collapseCore w0) ∧
    rstripTrail (spaceFix (collapseCore w0)) = spaceFix (collapseCore w0) ∧
    spaceFix (joinWords (pySplit (spaceFix (collapseCore w0)))) =
      spaceFix (collapseCore w0) := by
  have haws : isPySpace a = false := not_trail_not_ws hat
  have hwlast := cc_getLast a haws w0.length w0 le_rfl hl
  have hwhead := cc_head hh
  have hwws := cc_wsOk w0.length w0 le_rfl
  obtain ⟨huws, huno, -⟩ :=
    sfGo_props (collapseCore w0).length (collapseCore w0) le_rfl hwws false
  have huhead : headWs (spaceFix (collapseCore w0)) = false := spaceFix_head hwhead
  have hulast : (spaceFix (collapseCore w0)).getLast? = some a :=
    sfGo_getLast a haws (collapseCore w0) hwlast false []
  refine ⟨pyStrip_id_of _ huhead a hulast haws,
    rstripTrail_id_of _ a hulast hat, ?_⟩
  rw [joinWords_pySplit_eq, dropWhile_id_of_headWs huhead]
  rw [cc_id_of_good (spaceFix (collapseCore w0)).length (spaceFix (collapseCore w0))
    le_rfl huhead huws]
  exact sfGo_id (spaceFix (collapseCore w0)).length (spaceFix (collapseCore w0))
    le_rfl huws huno false (fun h => absurd h (by simp))

/-- C6 (counterexample): `clean_text` is not idempotent.  On the input
"hope\nsee there xx" the special-case pattern `hope.*see.*there` fails (`.`
does not match the newline), so the first pass only collapses the newline
into a space; on the resulting "hope see there xx" the pattern now matches
and the second pass returns the fixed replacement text. -/
theorem C6_counterexample :
    clean_text (clean_text "hope\nsee there xx".toList) ≠
      clean_text "hope\nsee there xx".toList := by decide

/-- C6 (amended): `clean_text` is idempotent on newline-free input: for every
string t without a newline character, clean_text (clean_text t) = clean_text t
— applying `clean_text` to an already-cleaned such string returns it
unchanged. -/
theorem C6_amended (t : List Char) (hnl : '\n' ∉ t) :
    clean_text (clean_text t) = clean_text t := by
  have hmem : ∀ c ∈ pyStrip t, ¬ c = '\n' := fun c hc he => hnl (he ▸ pyStrip_mem hc)
  by_cases hsc : hasSpecialCase (pyStrip t) = true
  · rw [clean_text_eq t, if_pos hsc]
    decide
  · rw [Bool.not_eq_true] at hsc
    have hnosp := no_new_special (pyStrip t) hmem hsc
    rw [clean_text_eq t, if_neg (by simp [hsc])]
    by_cases hv : rstripTrail (pyStrip t) = []
    · rw [hv]
      decide
    · obtain ⟨a, ha⟩ : ∃ x, (rstripTrail (pyStrip t)).getLast? = some x := by
        cases hq : (rstripTrail (pyStrip t)).getLast? with
        | none => exact absurd (List.getLast?_eq_none_iff.mp hq) hv
        | some x => exact ⟨x, rfl⟩
      have hatr : isTrailCh a = false := by
        have ha2 := ha
        rw [rstripTrail, List.getLast?_reverse] at ha2
        exact dropWhile_head_not isTrailCh _ a ha2
      have hw0head : headWs ((rstripTrail (pyStrip t)).dropWhile isPySpace) = false :=
        headWs_dropWhile _
      have hw0last : ((rstripTrail (pyStrip t)).dropWhile isPySpace).getLast? = some a :=
        getLast?_dropWhile isPySpace a (not_trail_not_ws hatr) _ ha
      obtain ⟨hu1, hu2, hu3⟩ :=
        u_props ((rstripTrail (pyStrip t)).dropWhile isPySpace) hw0head a hw0last hatr
      rw [joinWords_pySplit_eq] at hnosp ⊢
      rw [clean_text_eq, hu1, if_neg (by simp [hnosp]), hu2]
      exact hu3

/-- C6 (witness): the amended idempotence theorem applied to the concrete
newline-free input "Hello  World". -/
theorem C6_witness :
    clean_text (clean_text "Hello  World".toList) = clean_text "Hello  World".toList :=
  C6_amended "Hello  World".toList (by decide)
